import Mathlib

/-!
Verification of dumpfilter: the segmented character buffer, the printability
rule, the match emitter, the scan and the option switch.

A shallow embedding of `src/charbuffer.c` and of `is_printable`, `parsellu`,
`chunk_accepted`, `scan_file` and the option loop of `main` from `src/main.c`.

Conventions of the embedding.

* A `charbuffer_t*` is the list of nodes reachable from it through `next`:
  `[]` is the `NULL` pointer, `b :: rest` is a node `b` with `b->next = rest`.
* A function that returns a pointer into the chain it was given returns the
  chain after the call together with the index of the returned node, counted
  from the node that was passed in (`none` is `NULL`).
* Bytes (`char`) are natural numbers. `size_t` and `uint64_t` counters are
  natural numbers: every sum the code forms is a sum of sizes of blocks that
  exist in memory, so it does not wrap.
* `allocate` (a wrapper of `malloc`) succeeds; fresh memory reads as zero
  bytes. No function of the buffer reads a byte at an index `≥ filled`.
-/

namespace Dumpfilter

/-! ## Data model (`charbuffer.h`) -/

/-- One node of `struct charbuffer`, without its `next` link. -/
structure charbuffer where
  mem : List Nat
  size : Nat
  filled : Nat
deriving DecidableEq

/-- A `charbuffer_t*`: the nodes reachable through `next`, `[]` for `NULL`. -/
abbrev Chain := List charbuffer

/-- Re-anchor a result computed from node `k` of `ch` at the head of `ch`. -/
def from_node (ch : Chain) (k : Nat) (r : Chain × Option Nat) : Chain × Option Nat :=
  (ch.take k ++ r.1, r.2.map (· + k))

/-- Replace node `k` of a chain by `f` of it. -/
def write_node (f : charbuffer → charbuffer) : Nat → Chain → Chain
  | _, [] => []
  | 0, b :: next => f b :: next
  | k + 1, b :: next => b :: write_node f k next

/-! ## Operations (`charbuffer.c`) -/

/-- `charbuffer_alloc`: `NULL` for `bufsize <= 0`, else one empty node whose
memory has `bufsize + 1` bytes. -/
def charbuffer_alloc (bufsize : Nat) : Chain :=
  if bufsize ≤ 0 then []
  else [{ mem := List.replicate (bufsize + 1) 0, size := bufsize, filled := 0 }]

/-- The loop of `charbuffer_prepare_append`, `init_size` being
`init_buffer->size`. A node just allocated has `filled = 0 < size`, so the
loop leaves at it. -/
def prepare_append_loop (init_size : Nat) : Chain → Chain × Option Nat
  | [] => ([], none)
  | b :: next =>
    if b.filled ≥ b.size then
      match next with
      | [] =>
        match charbuffer_alloc init_size with
        | [] => ([b], none)
        | n :: _ => ([b, n], some 1)
      | n :: rest =>
        let r := prepare_append_loop init_size (n :: rest)
        (b :: r.1, r.2.map (· + 1))
    else (b :: next, some 0)

/-- `charbuffer_prepare_append`. -/
def charbuffer_prepare_append (buffer : Chain) : Chain × Option Nat :=
  match buffer with
  | [] => ([], none)
  | b :: _ => prepare_append_loop b.size buffer

/-- The two stores of `charbuffer_append_char`:
`mem[filled++] = c; mem[filled] = 0`. -/
def store_char (c : Nat) (b : charbuffer) : charbuffer :=
  { b with mem := (b.mem.set b.filled c).set (b.filled + 1) 0, filled := b.filled + 1 }

/-- `charbuffer_append_char`. -/
def charbuffer_append_char (buffer : Chain) (c : Nat) : Chain × Option Nat :=
  match charbuffer_prepare_append buffer with
  | (ch, none) => (ch, none)
  | (ch, some k) => (write_node (store_char c) k ch, some k)

/-- `charbuffer_append_buffer`, the bytes `b[0..size)` given as a list. Each
round appends at the node the previous round returned. -/
def charbuffer_append_buffer : Chain → List Nat → Chain × Option Nat
  | [], _ => ([], none)
  | n :: next, [] => (n :: next, some 0)
  | n :: next, c :: cs =>
    match charbuffer_append_char (n :: next) c with
    | (ch, none) => (ch, none)
    | (ch, some k) => from_node ch k (charbuffer_append_buffer (ch.drop k) cs)

/-- State after `charbuffer_append_charbuffer`: the destination chain, the
returned node and the source chain. -/
structure AppendResult where
  buffer : Chain
  ret : Option Nat
  source : Chain
deriving DecidableEq

/-- `charbuffer_append_charbuffer`. The source nodes are only read. -/
def charbuffer_append_charbuffer : Chain → Chain → Nat → AppendResult
  | [], source, _ => { buffer := [], ret := none, source := source }
  | n :: next, [], _ => { buffer := n :: next, ret := some 0, source := [] }
  | n :: next, s :: snext, offset =>
    if offset ≤ s.filled then
      match charbuffer_append_buffer (n :: next)
          ((s.mem.drop offset).take (s.filled - offset)) with
      | (ch, none) => { buffer := ch, ret := none, source := s :: snext }
      | (ch, some k) =>
        let r := charbuffer_append_charbuffer (ch.drop k) snext offset
        { buffer := ch.take k ++ r.buffer, ret := r.ret.map (· + k), source := s :: r.source }
    else
      let r := charbuffer_append_charbuffer (n :: next) snext (offset - s.filled)
      { r with source := s :: r.source }

/-- The `for` loop of `charbuffer_contains_buffer` over the filled bytes of
one node, from index `i`, on the pair `(matched, offset)`. -/
def contains_for (cbuf : List Nat) (size : Nat) : List Nat → Nat → Nat → Nat → Nat × Nat
  | [], _, matched, offset => (matched, offset)
  | m :: ms, i, matched, offset =>
    if matched < size then
      if cbuf[matched]? = some m then
        contains_for cbuf size ms (i + 1) (matched + 1) (if matched = 0 then i else offset)
      else contains_for cbuf size ms (i + 1) 0 offset
    else (matched, offset)

/-- The `while` loop of `charbuffer_contains_buffer`; `k` is the index of the
current node. The result is the return value and the pair stored through
`outPtr` and `outOffset`, when a store happens. -/
def contains_while (cbuf : List Nat) (size : Nat) :
    Chain → Nat → Nat → Nat → Bool × Option (Nat × Nat)
  | [], _, matched, _ => (decide (matched = size), none)
  | b :: next, k, matched, offset =>
    if matched < size then
      let r := contains_for cbuf size (b.mem.take b.filled) 0 matched offset
      if r.1 = size then (true, some (k, r.2))
      else contains_while cbuf size next (k + 1) r.1 r.2
    else (decide (matched = size), none)

/-- `charbuffer_contains_buffer` for a non-null `cbuf` of `size` bytes;
`offset` starts as `(size_t) -1`. -/
def charbuffer_contains_buffer (buffer : Chain) (cbuf : List Nat) :
    Bool × Option (Nat × Nat) :=
  match buffer with
  | [] => (false, none)
  | _ :: _ => contains_while cbuf cbuf.length buffer 0 0 (2 ^ 64 - 1)

/-- `memcpy(dest + pos, src, n)` on a destination given as a list. -/
def memcpy (dest : List Nat) (pos : Nat) (src : List Nat) (n : Nat) : List Nat :=
  dest.take pos ++ src.take n ++ dest.drop (pos + n)

/-- The loop of `charbuffer_to_buffer` from `n_filled`, while `result` is
true. -/
def to_buffer_loop : Chain → List Nat → Nat → Nat → Bool × List Nat
  | [], mem, _, _ => (true, mem)
  | b :: next, mem, max, n_filled =>
    if n_filled + b.filled > max then
      (false, memcpy mem n_filled b.mem (max - n_filled))
    else to_buffer_loop next (memcpy mem n_filled b.mem b.filled) max (n_filled + b.filled)

/-- `charbuffer_to_buffer`: the return value and the destination memory. -/
def charbuffer_to_buffer (buffer : Chain) (mem : List Nat) (max : Nat) : Bool × List Nat :=
  to_buffer_loop buffer mem max 0

/-- `charbuffer_truncate`, first branch (`truncate == 0`): free everything
after the node. -/
def truncate_zero : Chain → Bool × Chain
  | [] => (false, [])
  | b :: _ => (true, [b])

/-- The first `while` of the second branch of `charbuffer_truncate`. It leaves
either through the recursive call `charbuffer_truncate(buffer, 0)` or with
`buffer == NULL`; then the second `while` does not run and the function
returns `buffer != NULL`, which is false. -/
def truncate_walk (truncate : Nat) : Chain → Nat → Bool × Chain
  | [], _ => (false, [])
  | b :: next, has_bytes =>
    if has_bytes ≥ truncate then truncate_zero (b :: next)
    else
      let r := truncate_walk truncate next (has_bytes + b.size)
      (r.1, b :: r.2)

/-- `charbuffer_truncate`: the return value and the chain afterwards. -/
def charbuffer_truncate (buffer : Chain) (truncate : Nat) : Bool × Chain :=
  match buffer with
  | [] => (false, [])
  | b :: next =>
    if truncate = 0 then truncate_zero (b :: next)
    else truncate_walk truncate (b :: next) 0

/-- `charbuffer_potential`. -/
def charbuffer_potential : Chain → Nat
  | [] => 0
  | b :: next => b.size + charbuffer_potential next

/-- `charbuffer_flush`. -/
def charbuffer_flush : Chain → Chain
  | [] => []
  | b :: next => { b with filled := 0 } :: charbuffer_flush next

/-- `charbuffer_length`. -/
def charbuffer_length : Chain → Nat
  | [] => 0
  | b :: next => b.filled + charbuffer_length next

/-! ## The printability rule (`main.c`) -/

/-- The fields of `struct program_args` that the scan reads. -/
structure program_args where
  searchTerms : List (List Nat)
  nUnprintablesAllowed : Nat
  resultMaxSize : Nat
  minChunkSize : Nat
  nSkipBytes : Nat
  nUntil : Nat
  treatWhitespacesPrintable : Bool
  bufSize : Nat
  verbose : Bool
deriving DecidableEq

/-- The C library function `isprint` in the "C" locale (the program never
calls `setlocale`): true exactly for the codes 0x20 to 0x7E. -/
def isprint (i : Int) : Bool := decide (0x20 ≤ i ∧ i ≤ 0x7E)

/-- The `int` that a byte read into a `char` array converts to (`char` is
signed on the usual targets; bytes from 0x80 on become negative). -/
def char_to_int (b : Nat) : Int := if b < 128 then (b : Int) else (b : Int) - 256

/-- `is_printable`, on the `int` it is passed. -/
def is_printable (args : program_args) (i : Int) : Bool :=
  if args.treatWhitespacesPrintable ∧ (i = 10 ∨ i = 13 ∨ i = 9 ∨ i = 32) then true
  else isprint i

/-! ## The match emitter and the scan (`main.c`)

The output sink `args.outFile` is the list of bytes written to it so far;
every `fprintf` and `fwrite` on it writes all its bytes. Messages to `stderr`
are left out. `fseek` succeeds (on a regular file it does, also beyond the
end), so the skip phase does not return `ECANCELED`. -/

/-- `strlen`: the number of bytes before the first zero byte. -/
def strlen (s : List Nat) : Nat := (s.takeWhile (· ≠ 0)).length

/-- `charbuffer_contains_string` for a non-null `string`, given as its bytes. -/
def charbuffer_contains_string (buffer : Chain) (string : List Nat) :
    Bool × Option (Nat × Nat) :=
  match buffer with
  | [] => (false, none)
  | _ :: _ =>
    if strlen string = 0 then (true, none)
    else charbuffer_contains_buffer buffer (string.take (strlen string))

/-- The loop of `charbuffer_to_file`: the sink and `*outBytes` after the
remaining nodes are written. -/
def to_file_loop : Chain → List Nat → Nat → List Nat × Nat
  | [], fp, outBytes => (fp, outBytes)
  | b :: next, fp, outBytes =>
    to_file_loop next (fp ++ b.mem.take b.filled) (outBytes + b.filled)

/-- `charbuffer_to_file` on a non-null `fp`: the return value, the sink
afterwards and the count stored through `outBytes`. -/
def charbuffer_to_file (buffer : Chain) (fp : List Nat) : Bool × List Nat × Nat :=
  match buffer with
  | [] => (false, fp, 0)
  | _ :: _ => (true, to_file_loop buffer fp 0)

/-- The characters that `fprintf` with the format `%llu` writes: the decimal
digits of the value. -/
def print_llu (n : Nat) : List Nat := (Nat.toDigits 10 n).map Char.toNat

/-- The delimiter line of `chunk_accepted`, with its newline. -/
def delimiter_line : List Nat :=
  ">>>>>>>>>>>>>>>>>>>>>>>>>>>>>>>>>>>>\n".toList.map Char.toNat

/-- The `for` loop of `chunk_accepted` over `args.searchTerms`: the value of
`matches` after it. -/
def chunk_matches (buffer : Chain) : List (List Nat) → Bool
  | [] => false
  | t :: ts =>
    if (charbuffer_contains_string buffer t).1 = true then true
    else chunk_matches buffer ts

/-- `chunk_accepted`: the return value and the sink afterwards. -/
def chunk_accepted (args : program_args) (buffer : Chain) (byteOffset : Nat)
    (outFile : List Nat) : Bool × List Nat :=
  if chunk_matches buffer args.searchTerms = true then
    (true,
      (charbuffer_to_file buffer
        (outFile ++ (print_llu byteOffset ++ [10]) ++ delimiter_line)).2.1 ++ [10, 10])
  else (false, outFile)

/-- What the close branch of `scan_file` saw when it ran: the offset
`bytesPassed + i`, the run buffer and the counters, `maxChunkSize` after its
update, and whether the run was a candidate (`accepted`), that is, whether
`chunk_accepted(printable, byteOffset)` was called. -/
structure closure_event where
  byteOffset : Nat
  printable : Chain
  printableCount : Nat
  unprintableCount : Nat
  currChunkSize : Nat
  maxChunkSize : Nat
  accepted : Bool
deriving DecidableEq

/-- The local variables of `scan_file` that the loop body changes, the sink,
and a record of the closures so far (kept for the statements; the code has no
such variable). -/
structure scan_state where
  printable : Chain
  unprintable : Chain
  printableOpt : Option Nat
  unprintableOpt : Option Nat
  printableCount : Nat
  unprintableCount : Nat
  maxChunkSize : Nat
  currChunkSize : Nat
  prevPrintable : Bool
  outFile : List Nat
  closures : List closure_event
deriving DecidableEq

/-- The pointer to the head of a chain. -/
def head_ptr (ch : Chain) : Option Nat :=
  match ch with
  | [] => none
  | _ :: _ => some 0

/-- `charbuffer_append_char(p, c)` for a pointer `p` into the chain `ch`. -/
def append_char_at (ch : Chain) (p : Option Nat) (c : Nat) : Chain × Option Nat :=
  match p with
  | none => (ch, none)
  | some k => from_node ch k (charbuffer_append_char (ch.drop k) c)

/-- The three branches of the loop body of `scan_file`. -/
inductive scan_branch_kind where
  | append
  | close
  | stage
deriving DecidableEq

/-- The branch the loop body takes on the byte `b`. -/
def scan_branch (args : program_args) (st : scan_state) (b : Nat) : scan_branch_kind :=
  if is_printable args (char_to_int b) = true ∧
      (args.resultMaxSize = 0 ∨ st.printableCount ≤ args.resultMaxSize) then
    scan_branch_kind.append
  else if st.unprintableCount > args.nUnprintablesAllowed then scan_branch_kind.close
  else scan_branch_kind.stage

/-- The body of the `for` loop of `scan_file` on the byte `b = buffer[i]`,
with `byteOffset = bytesPassed + i`. -/
def scan_byte (args : program_args) (byteOffset : Nat) (st : scan_state) (b : Nat) :
    scan_state :=
  match scan_branch args st b with
  | scan_branch_kind.append =>
    let currChunkSize := if st.prevPrintable = false then 0 else st.currChunkSize
    let r := charbuffer_append_charbuffer st.printable st.unprintable 0
    let w := append_char_at r.buffer r.ret b
    { st with
      printable := w.1
      printableOpt := w.2
      unprintable := charbuffer_flush r.source
      unprintableOpt := head_ptr r.source
      unprintableCount := 0
      printableCount := st.printableCount + 1
      currChunkSize := currChunkSize + 1
      prevPrintable := is_printable args (char_to_int b) }
  | scan_branch_kind.close =>
    let maxChunkSize :=
      if st.currChunkSize > st.maxChunkSize then st.currChunkSize else st.maxChunkSize
    let accepted :=
      (decide (args.resultMaxSize = 0) || decide (st.printableCount ≤ args.resultMaxSize)) &&
        decide (maxChunkSize ≥ args.minChunkSize)
    { printable := charbuffer_flush st.printable
      unprintable := charbuffer_flush st.unprintable
      printableOpt := head_ptr st.printable
      unprintableOpt := head_ptr st.unprintable
      printableCount := 0
      unprintableCount := 0
      maxChunkSize := 0
      currChunkSize := 0
      prevPrintable := is_printable args (char_to_int b)
      outFile :=
        if accepted = true then (chunk_accepted args st.printable byteOffset st.outFile).2
        else st.outFile
      closures := st.closures ++
        [{ byteOffset := byteOffset
           printable := st.printable
           printableCount := st.printableCount
           unprintableCount := st.unprintableCount
           currChunkSize := st.currChunkSize
           maxChunkSize := maxChunkSize
           accepted := accepted }] }
  | scan_branch_kind.stage =>
    let w := append_char_at st.unprintable st.unprintableOpt b
    { st with
      unprintable := w.1
      unprintableOpt := w.2
      unprintableCount := st.unprintableCount + 1
      prevPrintable := is_printable args (char_to_int b) }

/-- The `for` loop of `scan_file` over the bytes of one read, from index `i`. -/
def scan_for (args : program_args) (bytesPassed : Nat) :
    List Nat → Nat → scan_state → scan_state
  | [], _, st => st
  | b :: rest, i, st =>
    scan_for args bytesPassed rest (i + 1) (scan_byte args (bytesPassed + i) st b)

/-- The `while` loop of `scan_file` on the unread part `fp` of the input.
`fread` fills the buffer with the next `bufSize` bytes, or with what is left.
The first argument bounds the number of rounds; `scan_file` passes more than
the input has bytes. -/
def scan_while (args : program_args) : Nat → List Nat → Nat → scan_state → scan_state
  | 0, _, _, st => st
  | fuel + 1, fp, bytesPassed, st =>
    if st.printableOpt.isSome = true ∧ st.unprintableOpt.isSome = true then
      if (fp.take args.bufSize).length ≤ 0 then st
      else
        let st1 := scan_for args bytesPassed (fp.take args.bufSize) 0 st
        if args.nUntil ≠ 0 ∧ bytesPassed + (fp.take args.bufSize).length > args.nUntil then st1
        else
          scan_while args fuel (fp.drop args.bufSize)
            (bytesPassed + (fp.take args.bufSize).length) st1
    else st

/-- The skip loop of `scan_file`: the value of `skipped` after it. The first
argument bounds the number of rounds. -/
def skip_loop (nSkipBytes : Nat) : Nat → Nat → Nat
  | 0, skipped => skipped
  | fuel + 1, skipped =>
    if skipped < nSkipBytes then
      skip_loop nSkipBytes fuel
        (skipped + (if skipped + 1024 * 4 > nSkipBytes then nSkipBytes - skipped else 1024 * 4))
    else skipped

/-- The state of `scan_file` when it enters its `while` loop. -/
def scan_init (printable unprintable : Chain) : scan_state :=
  { printable := printable
    unprintable := unprintable
    printableOpt := head_ptr printable
    unprintableOpt := head_ptr unprintable
    printableCount := 0
    unprintableCount := 0
    maxChunkSize := 0
    currChunkSize := 0
    prevPrintable := false
    outFile := []
    closures := [] }

/-- `scan_file` on a file with the bytes `fp`, the sink being empty: `none`
when it returns `memory_error()`, else the state when the `while` loop is
left, just before the two buffers are freed and 0 is returned. -/
def scan_file (args : program_args) (fp : List Nat) : Option scan_state :=
  match charbuffer_alloc args.bufSize, charbuffer_alloc args.bufSize with
  | [], _ => none
  | _ :: _, [] => none
  | p :: pn, u :: un =>
    some (scan_while args (fp.length + 1)
      (fp.drop (skip_loop args.nSkipBytes (args.nSkipBytes + 1) 0))
      (skip_loop args.nSkipBytes (args.nSkipBytes + 1) 0)
      (scan_init (p :: pn) (u :: un)))

/-! ## Option parsing (`main.c`)

Strings (`char*`) are the lists of their bytes before the terminating zero.
`uint64_t` values are taken modulo `2 ^ 64` where `parsellu` computes with
them. -/

/-- The C library function `isspace` in the "C" locale. -/
def isspace (c : Nat) : Bool := decide (c = 32 ∨ (9 ≤ c ∧ c ≤ 13))

/-- The digits that `strtoull` consumes in base 10, folded into the value
read so far; the result is the value and the unread rest. -/
def strtoull_digits : List Nat → Nat → Nat × List Nat
  | [], acc => (acc, [])
  | d :: rest, acc =>
    if 48 ≤ d ∧ d ≤ 57 then strtoull_digits rest (acc * 10 + (d - 48))
    else (acc, d :: rest)

/-- The sign that `strtoull` accepts after the white space: whether it is a
minus, and the rest. -/
def strtoull_sign (t : List Nat) : Bool × List Nat :=
  match t with
  | [] => (false, [])
  | c :: r => if c = 45 then (true, r) else if c = 43 then (false, r) else (false, c :: r)

/-- The C library function `strtoull(s, &endptr, 10)`: white space, an
optional sign, decimal digits. The result is the value and `endptr`; without
digits the value is 0 and `endptr` is `s`; a value beyond the range gives
`ULLONG_MAX`; a minus sign negates within the type. -/
def strtoull (s : List Nat) : Nat × List Nat :=
  match (strtoull_sign (s.dropWhile isspace)).2 with
  | [] => (0, s)
  | d :: u =>
    if 48 ≤ d ∧ d ≤ 57 then
      let r := strtoull_digits (d :: u) 0
      (if r.1 ≥ 2 ^ 64 then 2 ^ 64 - 1
        else if (strtoull_sign (s.dropWhile isspace)).1 = true then (2 ^ 64 - r.1) % 2 ^ 64
        else r.1,
        r.2)
    else (0, s)

/-- The multiplier `mul` that `parsellu` reads at `endptr`, and `endptr`
after it. -/
def parsellu_mul (endptr : List Nat) : Nat × List Nat :=
  match endptr with
  | [] => (0, [])
  | e :: rest =>
    if e = 107 then (1000, rest)
    else if e = 75 then (1024, rest)
    else if e = 109 then (1000 * 1000, rest)
    else if e = 77 then (1024 * 1024, rest)
    else (0, e :: rest)

/-- The operator `op` that `parsellu` reads at `endptr` (0 when there is
none), and `endptr` after it. -/
def parsellu_op (endptr : List Nat) : Nat × List Nat :=
  match endptr with
  | [] => (0, [])
  | c :: rest =>
    if c = 43 ∨ c = 45 ∨ c = 42 ∨ c = 47 then (c, rest) else (0, c :: rest)

/-- `parsellu`, its recursion bounded by the first argument; every recursive
call is on a shorter string, so the length of the string plus one is
enough. -/
def parsellu_rec : Nat → List Nat → Nat
  | 0, _ => 0
  | fuel + 1, string =>
    let r := strtoull string
    match r.2 with
    | [] => r.1
    | e :: rest =>
      let m := parsellu_mul (e :: rest)
      let value := if m.1 ≠ 0 then (r.1 * m.1) % 2 ^ 64 else r.1
      let o := parsellu_op m.2
      if o.2 ≠ [] ∧ o.1 ≠ 0 then
        let right := parsellu_rec fuel o.2
        if o.1 = 43 then (value + right) % 2 ^ 64
        else if o.1 = 45 then (value + 2 ^ 64 - right) % 2 ^ 64
        else if o.1 = 42 then (value * right) % 2 ^ 64
        else if right ≠ 0 then value / right
        else value
      else value

/-- `parsellu`. -/
def parsellu (string : List Nat) : Nat := parsellu_rec (string.length + 1) string

/-- The part of `args` that the option loop of `main` sets: the fields the
scan reads and `outFilePath`. -/
structure option_state where
  args : program_args
  outFilePath : Option (List Nat)
deriving DecidableEq

/-- `args` when the option loop of `main` starts. -/
def main_init : option_state :=
  { args :=
      { searchTerms := []
        nUnprintablesAllowed := 0
        resultMaxSize := 0
        minChunkSize := 0
        nSkipBytes := 0
        nUntil := 0
        treatWhitespacesPrintable := true
        bufSize := 1024
        verbose := false }
    outFilePath := none }

/-- The statements of `case 'c'` up to its `break` (the test
`minChunkSize < 0` is on an unsigned value); `none` is `return usage()`. -/
def option_case_c (st : option_state) (optarg : List Nat) : Option option_state :=
  if parsellu optarg < 0 then none
  else some { st with args := { st.args with minChunkSize := parsellu optarg } }

/-- The statements from `case 'm'` on: the case has no `break` and runs on
into `case 'c'`. -/
def option_case_m (st : option_state) (optarg : List Nat) : Option option_state :=
  if parsellu optarg < 128 ∧ parsellu optarg ≠ 0 then none
  else option_case_c { st with args := { st.args with resultMaxSize := parsellu optarg } } optarg

/-- The statements from `case 'b'` on: the case has no `break` and runs on
into `case 'm'`. -/
def option_case_b (st : option_state) (optarg : List Nat) : Option option_state :=
  if parsellu optarg < 128 then none
  else option_case_m { st with args := { st.args with bufSize := parsellu optarg } } optarg

/-- One round of the option loop of `main` for the option letter `c` that
`getopt` returned, with its `optarg`: the state afterwards, or `none` when the
round ends in `return usage()` (the value `EINVAL`). -/
def main_option (st : option_state) (c : Char) (optarg : List Nat) : Option option_state :=
  if c = 'o' then
    if st.outFilePath.isSome = true then none
    else some { st with outFilePath := some optarg }
  else if c = 'a' then
    some { st with args := { st.args with nUnprintablesAllowed := parsellu optarg } }
  else if c = 'b' then option_case_b st optarg
  else if c = 'm' then option_case_m st optarg
  else if c = 'c' then option_case_c st optarg
  else if c = 's' then
    if parsellu optarg < 0 then none
    else some { st with args := { st.args with nSkipBytes := parsellu optarg } }
  else if c = 'v' then some { st with args := { st.args with verbose := true } }
  else if c = 'w' then
    some { st with args := { st.args with treatWhitespacesPrintable := false } }
  else if c = 'u' then some { st with args := { st.args with nUntil := parsellu optarg } }
  else none

/-! ## Specification-level notions -/

/-- The logical byte sequence of a chain: the filled bytes of its nodes in
order. -/
def content : Chain → List Nat
  | [] => []
  | b :: next => b.mem.take b.filled ++ content next

/-- A single node holding exactly the given bytes. -/
def block_of (bytes : List Nat) (size : Nat) : charbuffer :=
  { mem := bytes ++ List.replicate (size + 1 - bytes.length) 0, size := size,
    filled := bytes.length }

/-- Every node of the chain is full (`filled >= size`). -/
def AllFull (ch : Chain) : Prop := ∀ x ∈ ch, x.size ≤ x.filled

/-- Every node of the chain is empty (`filled = 0`). -/
def AllEmpty (ch : Chain) : Prop := ∀ x ∈ ch, x.filled = 0

/-- A node as `charbuffer_alloc` and the appends leave it: a positive size,
`size + 1` bytes of memory and at most `size` of them filled. -/
def node_ok (b : charbuffer) : Prop :=
  0 < b.size ∧ b.filled ≤ b.size ∧ b.mem.length = b.size + 1

/-- The shape that appending and flushing keep: full nodes, then at most one
partly filled node, then empty nodes. -/
def Shape : Chain → Prop
  | [] => True
  | b :: next => if b.size ≤ b.filled then Shape next else AllEmpty next

/-- A chain the buffer operations can have produced: non-null, every node
well formed, in the shape above. -/
def chain_ok (ch : Chain) : Prop :=
  ch ≠ [] ∧ (∀ b ∈ ch, node_ok b) ∧ Shape ch

instance AllFull.dec (ch : Chain) : Decidable (AllFull ch) := by
  unfold AllFull
  infer_instance

instance AllEmpty.dec (ch : Chain) : Decidable (AllEmpty ch) := by
  unfold AllEmpty
  infer_instance

instance node_ok.dec (b : charbuffer) : Decidable (node_ok b) := by
  unfold node_ok
  infer_instance

instance Shape.dec : (ch : Chain) → Decidable (Shape ch)
  | [] => isTrue trivial
  | b :: next =>
    if h : b.size ≤ b.filled then
      match Shape.dec next with
      | isTrue hs => isTrue (by unfold Shape; rw [if_pos h]; exact hs)
      | isFalse hs => isFalse (by unfold Shape; rw [if_pos h]; exact hs)
    else
      match AllEmpty.dec next with
      | isTrue hs => isTrue (by unfold Shape; rw [if_neg h]; exact hs)
      | isFalse hs => isFalse (by unfold Shape; rw [if_neg h]; exact hs)

instance chain_ok.dec (ch : Chain) : Decidable (chain_ok ch) := by
  unfold chain_ok
  infer_instance

/-- A pointer as the appends return it: a node of the chain with only full
nodes before it. -/
def ptr_ok (ch : Chain) (p : Option Nat) : Prop :=
  ∃ k, p = some k ∧ k < ch.length ∧ AllFull (ch.take k)

/-- The two buffers of the scan are chains as the buffer operations produce
them and the two `Opt` pointers point into them as the appends return them. -/
def scan_ok (st : scan_state) : Prop :=
  chain_ok st.printable ∧ chain_ok st.unprintable ∧
    ptr_ok st.printable st.printableOpt ∧ ptr_ok st.unprintable st.unprintableOpt

/-- A closure as the specification sees it: the run as a byte sequence. -/
structure run_closure where
  byteOffset : Nat
  run : List Nat
  printableCount : Nat
  unprintableCount : Nat
  currChunkSize : Nat
  maxChunkSize : Nat
  accepted : Bool
deriving DecidableEq

/-- The classifier state as the specification sees it: the two buffers as
byte sequences, the counters, and the closures so far. -/
structure run_state where
  printable : List Nat
  unprintable : List Nat
  printableCount : Nat
  unprintableCount : Nat
  maxChunkSize : Nat
  currChunkSize : Nat
  prevPrintable : Bool
  closures : List run_closure
deriving DecidableEq

/-- The specification's view of a closure of the scan. -/
def run_closure_of (e : closure_event) : run_closure :=
  { byteOffset := e.byteOffset
    run := content e.printable
    printableCount := e.printableCount
    unprintableCount := e.unprintableCount
    currChunkSize := e.currChunkSize
    maxChunkSize := e.maxChunkSize
    accepted := e.accepted }

/-- The specification's view of a state of the scan. -/
def run_of (st : scan_state) : run_state :=
  { printable := content st.printable
    unprintable := content st.unprintable
    printableCount := st.printableCount
    unprintableCount := st.unprintableCount
    maxChunkSize := st.maxChunkSize
    currChunkSize := st.currChunkSize
    prevPrintable := st.prevPrintable
    closures := st.closures.map run_closure_of }

/-- The branch of the transition rule, on the specification's state. -/
def run_branch (args : program_args) (rs : run_state) (b : Nat) : scan_branch_kind :=
  if is_printable args (char_to_int b) = true ∧
      (args.resultMaxSize = 0 ∨ rs.printableCount ≤ args.resultMaxSize) then
    scan_branch_kind.append
  else if rs.unprintableCount > args.nUnprintablesAllowed then scan_branch_kind.close
  else scan_branch_kind.stage

/-- The per-byte transition rule on the specification's state: what
`scan_byte` does, with the buffers as byte sequences. -/
def run_byte (args : program_args) (byteOffset : Nat) (rs : run_state) (b : Nat) :
    run_state :=
  match run_branch args rs b with
  | scan_branch_kind.append =>
    { rs with
      printable := rs.printable ++ rs.unprintable ++ [b]
      unprintable := []
      unprintableCount := 0
      printableCount := rs.printableCount + 1
      currChunkSize := (if rs.prevPrintable = false then 0 else rs.currChunkSize) + 1
      prevPrintable := is_printable args (char_to_int b) }
  | scan_branch_kind.close =>
    { printable := []
      unprintable := []
      printableCount := 0
      unprintableCount := 0
      maxChunkSize := 0
      currChunkSize := 0
      prevPrintable := is_printable args (char_to_int b)
      closures := rs.closures ++
        [{ byteOffset := byteOffset
           run := rs.printable
           printableCount := rs.printableCount
           unprintableCount := rs.unprintableCount
           currChunkSize := rs.currChunkSize
           maxChunkSize :=
             if rs.currChunkSize > rs.maxChunkSize then rs.currChunkSize else rs.maxChunkSize
           accepted :=
             (decide (args.resultMaxSize = 0) ||
                decide (rs.printableCount ≤ args.resultMaxSize)) &&
               decide ((if rs.currChunkSize > rs.maxChunkSize then rs.currChunkSize
                 else rs.maxChunkSize) ≥ args.minChunkSize) }] }
  | scan_branch_kind.stage =>
    { rs with
      unprintable := rs.unprintable ++ [b]
      unprintableCount := rs.unprintableCount + 1
      prevPrintable := is_printable args (char_to_int b) }

/-- The transition rule over a sequence of bytes, the first at offset
`bytesPassed + i`. -/
def run_for (args : program_args) (bytesPassed : Nat) :
    List Nat → Nat → run_state → run_state
  | [], _, rs => rs
  | b :: rest, i, rs =>
    run_for args bytesPassed rest (i + 1) (run_byte args (bytesPassed + i) rs b)

/-- The specification's state before the first byte. -/
def run_init : run_state :=
  { printable := []
    unprintable := []
    printableCount := 0
    unprintableCount := 0
    maxChunkSize := 0
    currChunkSize := 0
    prevPrintable := false
    closures := [] }

/-- A call of one of the buffer operations on the head of a chain. -/
inductive buffer_op where
  | append_char (c : Nat)
  | append_buffer (b : List Nat)
  | append_charbuffer (source : Chain) (offset : Nat)
  | flush
  | truncate (n : Nat)

/-- The chain after one operation on its head. -/
def apply_op (ch : Chain) : buffer_op → Chain
  | buffer_op.append_char c => (charbuffer_append_char ch c).1
  | buffer_op.append_buffer b => (charbuffer_append_buffer ch b).1
  | buffer_op.append_charbuffer source offset =>
    (charbuffer_append_charbuffer ch source offset).buffer
  | buffer_op.flush => charbuffer_flush ch
  | buffer_op.truncate n => (charbuffer_truncate ch n).2

/-- The chain after a sequence of operations on its head. -/
def apply_ops (ch : Chain) (ops : List buffer_op) : Chain := ops.foldl apply_op ch

/-- The search of `charbuffer_contains_buffer` run over one byte sequence:
whether `matched` reaches the length of the needle. -/
def search_hit (cbuf : List Nat) (text : List Nat) : Bool :=
  decide ((contains_for cbuf cbuf.length text 0 0 0).1 = cbuf.length)

/-- The result of `charbuffer_contains_string` on a non-null buffer, from the
bytes the buffer holds. -/
def string_hit (string : List Nat) (text : List Nat) : Bool :=
  if strlen string = 0 then true else search_hit (string.take (strlen string)) text

/-- The bytes a closure adds to the sink, from the run as a byte sequence:
the framed run when the run was a candidate and a search term is found in it,
else nothing. -/
def run_emit (args : program_args) (e : run_closure) : List Nat :=
  if e.accepted = true ∧ (args.searchTerms.any fun t => string_hit t e.run) = true then
    print_llu e.byteOffset ++ [10] ++ delimiter_line ++ e.run ++ [10, 10]
  else []

/-- The bytes a sequence of closures adds to the sink. -/
def run_output (args : program_args) : List run_closure → List Nat
  | [] => []
  | e :: rest => run_emit args e ++ run_output args rest

/-- The length of the last uninterrupted stretch of printable bytes of a byte
sequence: the number of printable bytes at its end. -/
def last_stretch (args : program_args) (l : List Nat) : Nat :=
  (l.reverse.takeWhile fun b => is_printable args (char_to_int b)).length

/-- The invariant that ties `currChunkSize` to the run buffer: it is the last
stretch of the printable bytes; after a non-printable byte the tolerance buffer
ends with one (or the run is empty); after a printable byte within the budget
the tolerance buffer is empty. -/
def stretch_inv (args : program_args) (rs : run_state) : Prop :=
  rs.currChunkSize = last_stretch args rs.printable ∧
    (rs.prevPrintable = false →
      (∃ pre u, rs.unprintable = pre ++ [u] ∧ is_printable args (char_to_int u) = false) ∨
        (rs.printable = [] ∧ rs.unprintable = [])) ∧
    (rs.prevPrintable = true →
      (args.resultMaxSize = 0 ∨ rs.printableCount ≤ args.resultMaxSize) →
        rs.unprintable = []) ∧
    ∀ e ∈ rs.closures, e.currChunkSize = last_stretch args e.run

/-- A configuration with a budget of 2 printable bytes and one tolerated
byte. -/
def exhausted_args : program_args := ⟨[[65]], 1, 2, 0, 0, 0, true, 128, false⟩

/-- The state of the scan after "ABC" under `exhausted_args`: three printable
bytes are counted, one more than the budget. -/
def exhausted_state : scan_state :=
  scan_for exhausted_args 0 [65, 66, 67] 0
    (scan_init (charbuffer_alloc 128) (charbuffer_alloc 128))

/-- Appending the bytes one at a time with `charbuffer_append_char(head, c)`;
`none` as soon as one call returns `NULL`. -/
def append_chars : Chain → List Nat → Option Chain
  | ch, [] => some ch
  | ch, c :: cs =>
    match charbuffer_append_char ch c with
    | (_, none) => none
    | (ch1, some _) => append_chars ch1 cs

/-! ## Lemmas on chains -/


theorem content_append (a b : Chain) : content (a ++ b) = content a ++ content b := by
  induction a with
  | nil => rfl
  | cons x xs ih => simp [content, ih]

theorem content_all_empty (ch : Chain) (h : AllEmpty ch) : content ch = [] := by
  induction ch with
  | nil => rfl
  | cons x xs ih =>
    have hx : x.filled = 0 := h x (List.mem_cons_self _ _)
    have hxs : AllEmpty xs := fun y hy => h y (List.mem_cons_of_mem _ hy)
    simp [content, hx, ih hxs]

theorem write_node_append (f : charbuffer → charbuffer) (pre : Chain) (b : charbuffer)
    (post : Chain) : write_node f pre.length (pre ++ b :: post) = pre ++ f b :: post := by
  induction pre with
  | nil => rfl
  | cons x xs ih => simp [write_node, ih]

theorem prepare_loop_cons_cons (s : Nat) (b n : charbuffer) (rest : Chain) :
    prepare_append_loop s (b :: n :: rest) =
      if b.filled ≥ b.size then
        (b :: (prepare_append_loop s (n :: rest)).1,
          (prepare_append_loop s (n :: rest)).2.map (· + 1))
      else (b :: n :: rest, some 0) := by
  simp [prepare_append_loop]

theorem prepare_loop_split (s : Nat) (pre : Chain) (b : charbuffer) (post : Chain)
    (hpre : AllFull pre) (hb : b.filled < b.size) :
    prepare_append_loop s (pre ++ b :: post) = (pre ++ b :: post, some pre.length) := by
  induction pre with
  | nil =>
    have : ¬ b.filled ≥ b.size := by omega
    cases post <;> simp [prepare_append_loop, this]
  | cons x xs ih =>
    have hx : x.filled ≥ x.size := hpre x (List.mem_cons_self _ _)
    have hxs : AllFull xs := fun y hy => hpre y (List.mem_cons_of_mem _ hy)
    cases xs with
    | nil =>
      have := ih hxs
      simp only [List.nil_append] at this
      simp [prepare_loop_cons_cons, hx, this]
    | cons y ys =>
      have := ih hxs
      simp only [List.cons_append] at this ⊢
      rw [prepare_loop_cons_cons]
      simp [hx, this]

theorem prepare_loop_all_full (s : Nat) (hs : 0 < s) (ch : Chain) (hne : ch ≠ [])
    (hfull : AllFull ch) :
    prepare_append_loop s ch = (ch ++ charbuffer_alloc s, some ch.length) := by
  induction ch with
  | nil => exact absurd rfl hne
  | cons x xs ih =>
    have hx : x.filled ≥ x.size := hfull x (List.mem_cons_self _ _)
    have hxs : AllFull xs := fun y hy => hfull y (List.mem_cons_of_mem _ hy)
    cases xs with
    | nil =>
      have h0 : ¬ s ≤ 0 := by omega
      simp [prepare_append_loop, hx, charbuffer_alloc, h0]
    | cons y ys =>
      have := ih (by simp) hxs
      rw [prepare_loop_cons_cons]
      simp [hx, this]

theorem all_full_shape (ch : Chain) (h : AllFull ch) : Shape ch := by
  induction ch with
  | nil => trivial
  | cons x xs ih =>
    have hx : x.size ≤ x.filled := h x (List.mem_cons_self _ _)
    have hxs : AllFull xs := fun y hy => h y (List.mem_cons_of_mem _ hy)
    simp [Shape, hx, ih hxs]

theorem all_empty_shape (ch : Chain) (hpos : ∀ b ∈ ch, 0 < b.size) (h : AllEmpty ch) :
    Shape ch := by
  induction ch with
  | nil => trivial
  | cons x xs ih =>
    have hx : x.filled = 0 := h x (List.mem_cons_self _ _)
    have hp : 0 < x.size := hpos x (List.mem_cons_self _ _)
    have hxs : AllEmpty xs := fun y hy => h y (List.mem_cons_of_mem _ hy)
    have : ¬ x.size ≤ x.filled := by omega
    simp [Shape, this, hxs]

theorem shape_tail (b : charbuffer) (next : Chain) (hpos : ∀ x ∈ next, 0 < x.size)
    (h : Shape (b :: next)) : Shape next := by
  unfold Shape at h
  split at h
  · exact h
  · exact all_empty_shape next hpos h

theorem shape_drop (k : Nat) (ch : Chain) (hpos : ∀ x ∈ ch, 0 < x.size) (h : Shape ch) :
    Shape (ch.drop k) := by
  induction k generalizing ch with
  | zero => simpa using h
  | succ k ih =>
    cases ch with
    | nil => simpa using h
    | cons b next =>
      have hp : ∀ x ∈ next, 0 < x.size := fun y hy => hpos y (List.mem_cons_of_mem _ hy)
      simpa using ih next hp (shape_tail b next hp h)

theorem shape_full_append (pre ch : Chain) (hpre : AllFull pre) (h : Shape ch) :
    Shape (pre ++ ch) := by
  induction pre with
  | nil => simpa using h
  | cons x xs ih =>
    have hx : x.size ≤ x.filled := hpre x (List.mem_cons_self _ _)
    have hxs : AllFull xs := fun y hy => hpre y (List.mem_cons_of_mem _ hy)
    simp [Shape, hx, ih hxs]

theorem shape_split (ch : Chain) (h : Shape ch) :
    AllFull ch ∨ ∃ pre b post, ch = pre ++ b :: post ∧ AllFull pre ∧ b.filled < b.size ∧
      AllEmpty post := by
  induction ch with
  | nil => left; intro x hx; cases hx
  | cons x xs ih =>
    unfold Shape at h
    split at h
    · rename_i hx
      rcases ih h with hfull | ⟨pre, b, post, he, hpre, hb, hpost⟩
      · left
        intro y hy
        rcases List.mem_cons.mp hy with rfl | hy
        · exact hx
        · exact hfull y hy
      · right
        refine ⟨x :: pre, b, post, by simp [he], ?_, hb, hpost⟩
        intro y hy
        rcases List.mem_cons.mp hy with rfl | hy
        · exact hx
        · exact hpre y hy
    · rename_i hx
      right
      have hall : AllFull [] := fun y hy => by cases hy
      exact ⟨[], x, xs, rfl, hall, by omega, h⟩

theorem take_store (l : List Nat) (f c : Nat) (h : f < l.length) :
    ((l.set f c).set (f + 1) 0).take (f + 1) = l.take f ++ [c] := by
  induction l generalizing f with
  | nil => simp at h
  | cons x xs ih =>
    cases f with
    | zero => cases xs <;> simp
    | succ f =>
      have hf : f < xs.length := by simpa using h
      simpa using ih f hf

theorem store_char_content (c : Nat) (b : charbuffer) (h : b.filled < b.mem.length) :
    (store_char c b).mem.take (store_char c b).filled = b.mem.take b.filled ++ [c] := by
  simpa [store_char] using take_store b.mem b.filled c h

theorem store_char_node_ok (c : Nat) (b : charbuffer) (h : node_ok b) (hb : b.filled < b.size) :
    node_ok (store_char c b) := by
  obtain ⟨h1, _, h3⟩ := h
  refine ⟨h1, ?_, ?_⟩
  · show b.filled + 1 ≤ b.size
    omega
  · simpa [store_char] using h3

theorem alloc_pos (s : Nat) (hs : 0 < s) :
    charbuffer_alloc s = [{ mem := List.replicate (s + 1) 0, size := s, filled := 0 }] := by
  have : ¬ s ≤ 0 := by omega
  simp [charbuffer_alloc, this]

theorem append_char_split (c : Nat) (pre : Chain) (b : charbuffer) (post : Chain)
    (hpre : AllFull pre) (hb : b.filled < b.size) :
    charbuffer_append_char (pre ++ b :: post) c =
      (pre ++ store_char c b :: post, some pre.length) := by
  cases pre with
  | nil =>
    have := prepare_loop_split b.size [] b post hpre hb
    simp only [List.nil_append] at this
    simp [charbuffer_append_char, charbuffer_prepare_append, this, write_node]
  | cons x xs =>
    have := prepare_loop_split x.size (x :: xs) b post hpre hb
    simp only [List.cons_append] at this
    have hw := write_node_append (store_char c) (x :: xs) b post
    simp only [List.cons_append] at hw
    simp only [List.cons_append, charbuffer_append_char, charbuffer_prepare_append, this, hw]

theorem append_char_all_full (c : Nat) (x : charbuffer) (xs : Chain) (hfull : AllFull (x :: xs))
    (hpos : 0 < x.size) :
    charbuffer_append_char (x :: xs) c =
      ((x :: xs) ++ [store_char c
          { mem := List.replicate (x.size + 1) 0, size := x.size, filled := 0 }],
        some (x :: xs).length) := by
  have := prepare_loop_all_full x.size hpos (x :: xs) (by simp) hfull
  rw [alloc_pos x.size hpos] at this
  have hw := write_node_append (store_char c) (x :: xs)
    { mem := List.replicate (x.size + 1) 0, size := x.size, filled := 0 } []
  simp only [charbuffer_append_char, charbuffer_prepare_append, this, hw]

theorem charbuffer_append_char_ok (ch : Chain) (c : Nat) (h : chain_ok ch) :
    ∃ ch1 k, charbuffer_append_char ch c = (ch1, some k) ∧ chain_ok ch1 ∧
      content ch1 = content ch ++ [c] ∧ k < ch1.length ∧ AllFull (ch1.take k) := by
  obtain ⟨hne, hok, hshape⟩ := h
  rcases shape_split ch hshape with hfull | ⟨pre, b, post, rfl, hpre, hb, hpost⟩
  · cases ch with
    | nil => exact absurd rfl hne
    | cons x xs =>
      have hx := hok x (List.mem_cons_self _ _)
      have hfr : node_ok { mem := List.replicate (x.size + 1) 0, size := x.size, filled := 0 } :=
        ⟨hx.1, Nat.zero_le _, by simp⟩
      refine ⟨_, _, append_char_all_full c x xs hfull hx.1, ⟨by simp, ?_, ?_⟩, ?_, by simp, ?_⟩
      · intro y hy
        rcases List.mem_append.mp hy with hy | hy
        · exact hok y hy
        · rw [List.mem_singleton] at hy
          subst hy
          exact store_char_node_ok c _ hfr hx.1
      · apply shape_full_append _ _ hfull
        unfold Shape
        split
        · trivial
        · intro y hy; cases hy
      · rw [content_append]
        have := store_char_content c
          { mem := List.replicate (x.size + 1) 0, size := x.size, filled := 0 } (by simp)
        simp only [content, this]
        simp
      · simpa using hfull
  · have hb_ok : node_ok b := hok b (by simp)
    have hlen : b.filled < b.mem.length := by
      have := hb_ok.2.2
      omega
    refine ⟨_, _, append_char_split c pre b post hpre hb, ⟨by simp, ?_, ?_⟩, ?_, by simp, ?_⟩
    · intro y hy
      rcases List.mem_append.mp hy with hy | hy
      · exact hok y (List.mem_append_left _ hy)
      · rcases List.mem_cons.mp hy with rfl | hy
        · exact store_char_node_ok c b hb_ok hb
        · exact hok y (List.mem_append_right _ (List.mem_cons_of_mem _ hy))
    · apply shape_full_append _ _ hpre
      unfold Shape
      split
      · exact all_empty_shape post
          (fun y hy => (hok y (List.mem_append_right _ (List.mem_cons_of_mem _ hy))).1) hpost
      · exact hpost
    · simp only [content_append, content, store_char_content c b hlen,
        content_all_empty post hpost]
      simp
    · simpa using hpre

theorem chain_ok_drop (ch : Chain) (k : Nat) (h : chain_ok ch) (hk : k < ch.length) :
    chain_ok (ch.drop k) := by
  obtain ⟨_, hok, hshape⟩ := h
  refine ⟨?_, fun y hy => hok y (List.mem_of_mem_drop hy), ?_⟩
  · intro he
    have := congrArg List.length he
    simp at this
    omega
  · exact shape_drop k ch (fun y hy => (hok y hy).1) hshape

theorem chain_ok_rejoin (ch sub : Chain) (k : Nat) (h : chain_ok ch)
    (hfull : AllFull (ch.take k)) (hsub : chain_ok sub) : chain_ok (ch.take k ++ sub) := by
  obtain ⟨hne, hok, hshape⟩ := hsub
  refine ⟨by simp [hne], ?_, shape_full_append _ _ hfull hshape⟩
  intro y hy
  rcases List.mem_append.mp hy with hy | hy
  · exact h.2.1 y (List.mem_of_mem_take hy)
  · exact hok y hy

theorem content_take_drop (ch : Chain) (k : Nat) :
    content (ch.take k) ++ content (ch.drop k) = content ch := by
  rw [← content_append, List.take_append_drop]

theorem charbuffer_append_buffer_ok (ch : Chain) (bs : List Nat) (h : chain_ok ch) :
    ∃ ch1 k, charbuffer_append_buffer ch bs = (ch1, some k) ∧ chain_ok ch1 ∧
      content ch1 = content ch ++ bs ∧ k < ch1.length ∧ AllFull (ch1.take k) := by
  induction bs generalizing ch with
  | nil =>
    cases ch with
    | nil => exact absurd rfl h.1
    | cons n next =>
      refine ⟨n :: next, 0, rfl, h, by simp, by simp, ?_⟩
      intro y hy
      simp at hy
  | cons c cs ih =>
    cases ch with
    | nil => exact absurd rfl h.1
    | cons n next =>
      obtain ⟨ch1, k, he, hok1, hc1, hk1, hf1⟩ := charbuffer_append_char_ok (n :: next) c h
      obtain ⟨sub, j, hes, hoks, hcs, hjs, hfs⟩ := ih (ch1.drop k) (chain_ok_drop ch1 k hok1 hk1)
      have hlen : (ch1.take k).length = k := by
        rw [List.length_take]
        omega
      refine ⟨ch1.take k ++ sub, j + k, ?_, chain_ok_rejoin ch1 sub k hok1 hf1 hoks, ?_, ?_, ?_⟩
      · simp only [charbuffer_append_buffer, he, hes, from_node, Option.map_some']
      · rw [content_append, hcs, ← List.append_assoc, content_take_drop, hc1]
        simp
      · rw [List.length_append, hlen]
        omega
      · have : (ch1.take k ++ sub).take (j + k) = ch1.take k ++ sub.take j := by
          rw [List.take_append_eq_append_take, hlen]
          have h1 : (ch1.take k).take (j + k) = ch1.take k := by
            rw [List.take_take]
            congr 1
            omega
          rw [h1]
          congr 2
          omega
        rw [this]
        intro y hy
        rcases List.mem_append.mp hy with hy | hy
        · exact hf1 y hy
        · exact hfs y hy

theorem charbuffer_append_charbuffer_ok (dest src : Chain) (h : chain_ok dest)
    (hsrc : ∀ s ∈ src, s.filled ≤ s.mem.length) :
    ∃ ch1 k, charbuffer_append_charbuffer dest src 0 =
        { buffer := ch1, ret := some k, source := src } ∧ chain_ok ch1 ∧
      content ch1 = content dest ++ content src ∧ k < ch1.length ∧ AllFull (ch1.take k) := by
  induction src generalizing dest with
  | nil =>
    cases dest with
    | nil => exact absurd rfl h.1
    | cons n next =>
      refine ⟨n :: next, 0, rfl, h, by simp [content], by simp, ?_⟩
      intro y hy
      simp at hy
  | cons s snext ih =>
    cases dest with
    | nil => exact absurd rfl h.1
    | cons n next =>
      obtain ⟨ch1, k, he, hok1, hc1, hk1, hf1⟩ :=
        charbuffer_append_buffer_ok (n :: next) (s.mem.take s.filled) h
      obtain ⟨sub, j, hes, hoks, hcs, hjs, hfs⟩ := ih (ch1.drop k)
        (chain_ok_drop ch1 k hok1 hk1) (fun y hy => hsrc y (List.mem_cons_of_mem _ hy))
      have hlen : (ch1.take k).length = k := by
        rw [List.length_take]
        omega
      refine ⟨ch1.take k ++ sub, j + k, ?_, chain_ok_rejoin ch1 sub k hok1 hf1 hoks, ?_, ?_, ?_⟩
      · simp only [charbuffer_append_charbuffer, Nat.zero_le, if_true, List.drop_zero,
          Nat.sub_zero, he, hes, Option.map_some']
      · rw [content_append, hcs, ← List.append_assoc, content_take_drop, hc1]
        simp [content]
      · rw [List.length_append, hlen]
        omega
      · have : (ch1.take k ++ sub).take (j + k) = ch1.take k ++ sub.take j := by
          rw [List.take_append_eq_append_take, hlen]
          have h1 : (ch1.take k).take (j + k) = ch1.take k := by
            rw [List.take_take]
            congr 1
            omega
          rw [h1]
          congr 2
          omega
        rw [this]
        intro y hy
        rcases List.mem_append.mp hy with hy | hy
        · exact hf1 y hy
        · exact hfs y hy

theorem append_chars_ok (ch : Chain) (s : List Nat) (h : chain_ok ch) :
    ∃ ch1, append_chars ch s = some ch1 ∧ chain_ok ch1 ∧ content ch1 = content ch ++ s := by
  induction s generalizing ch with
  | nil => exact ⟨ch, rfl, h, by simp⟩
  | cons c cs ih =>
    obtain ⟨ch1, k, he, hok1, hc1, _, _⟩ := charbuffer_append_char_ok ch c h
    obtain ⟨ch2, he2, hok2, hc2⟩ := ih ch1 hok1
    refine ⟨ch2, ?_, hok2, ?_⟩
    · simp only [append_chars, he, he2]
    · rw [hc2, hc1]
      simp

theorem length_eq_content (ch : Chain) (h : ∀ b ∈ ch, b.filled ≤ b.mem.length) :
    charbuffer_length ch = (content ch).length := by
  induction ch with
  | nil => rfl
  | cons b next ih =>
    have hb := h b (List.mem_cons_self _ _)
    have := ih (fun y hy => h y (List.mem_cons_of_mem _ hy))
    simp [charbuffer_length, content, this, Nat.min_eq_left hb]

theorem chain_ok_reads (ch : Chain) (h : chain_ok ch) : ∀ b ∈ ch, b.filled ≤ b.mem.length := by
  intro b hb
  obtain ⟨_, h2, h3⟩ := h.2.1 b hb
  omega

theorem alloc_ok (c : Nat) (hc : 0 < c) : chain_ok (charbuffer_alloc c) := by
  rw [alloc_pos c hc]
  refine ⟨by simp, ?_, ?_⟩
  · intro b hb
    rw [List.mem_singleton] at hb
    subst hb
    exact ⟨hc, Nat.zero_le _, by simp⟩
  · have : ¬ c ≤ 0 := by omega
    simp [Shape, this, AllEmpty]

theorem alloc_content (c : Nat) : content (charbuffer_alloc c) = [] := by
  unfold charbuffer_alloc
  split <;> simp [content]

theorem memcpy_length (dest : List Nat) (pos : Nat) (src : List Nat) (n : Nat)
    (hd : pos + n ≤ dest.length) (hs : n ≤ src.length) :
    (memcpy dest pos src n).length = dest.length := by
  simp only [memcpy, List.length_append, List.length_take, List.length_drop]
  omega

theorem memcpy_take (dest : List Nat) (pos : Nat) (src : List Nat) (n : Nat)
    (hd : pos + n ≤ dest.length) (hs : n ≤ src.length) :
    (memcpy dest pos src n).take (pos + n) = dest.take pos ++ src.take n := by
  unfold memcpy
  apply List.take_left'
  simp only [List.length_append, List.length_take]
  omega

theorem memcpy_drop (dest : List Nat) (pos : Nat) (src : List Nat) (n m : Nat)
    (hd : pos + n ≤ dest.length) (hs : n ≤ src.length) (hm : pos + n ≤ m) :
    (memcpy dest pos src n).drop m = dest.drop m := by
  unfold memcpy
  have hl : (dest.take pos ++ src.take n).length = pos + n := by
    simp only [List.length_append, List.length_take]
    omega
  obtain ⟨d, rfl⟩ : ∃ d, m = (pos + n) + d := ⟨m - (pos + n), by omega⟩
  rw [← hl, List.drop_append, hl, List.drop_drop]

theorem to_buffer_loop_spec (ch : Chain) (mem : List Nat) (max n : Nat) (hn : n ≤ max)
    (hmem : max ≤ mem.length) (hr : ∀ b ∈ ch, b.filled ≤ b.mem.length) :
    to_buffer_loop ch mem max n =
      (decide (n + (content ch).length ≤ max),
        mem.take n ++ (content ch).take (max - n) ++
          mem.drop (min (n + (content ch).length) max)) := by
  induction ch generalizing mem n with
  | nil =>
    simp [to_buffer_loop, content, hn, Nat.min_eq_left hn]
  | cons b next ih =>
    have hb := hr b (List.mem_cons_self _ _)
    have hnext : ∀ y ∈ next, y.filled ≤ y.mem.length :=
      fun y hy => hr y (List.mem_cons_of_mem _ hy)
    have hcl : (b.mem.take b.filled).length = b.filled := by
      rw [List.length_take]
      omega
    unfold to_buffer_loop
    split
    · rename_i hgt
      have h1 : ¬ n + (content (b :: next)).length ≤ max := by
        simp only [content, List.length_append, hcl]
        omega
      have h2 : (content (b :: next)).take (max - n) = b.mem.take (max - n) := by
        simp only [content]
        rw [List.take_append_of_le_length (by omega), List.take_take]
        congr 1
        omega
      have h3 : min (n + (content (b :: next)).length) max = n + (max - n) := by
        simp only [content, List.length_append, hcl]
        omega
      simp only [h1, h2, h3, memcpy, decide_False]
    · rename_i hle
      have hle2 : n + b.filled ≤ max := by omega
      rw [ih (memcpy mem n b.mem b.filled) (n + b.filled) hle2
        (by rw [memcpy_length _ _ _ _ (by omega) hb]; exact hmem) hnext]
      have e1 : (n + b.filled + (content next).length ≤ max) ↔
          (n + (content (b :: next)).length ≤ max) := by
        simp only [content, List.length_append, hcl]
        omega
      have e2 : (memcpy mem n b.mem b.filled).take (n + b.filled) =
          mem.take n ++ b.mem.take b.filled := memcpy_take _ _ _ _ (by omega) hb
      have e3 : (content (b :: next)).take (max - n) =
          b.mem.take b.filled ++ (content next).take (max - (n + b.filled)) := by
        simp only [content]
        rw [List.take_append_eq_append_take, hcl, List.take_take]
        congr 2
        · omega
        · omega
      have e4 : min (n + b.filled + (content next).length) max =
          min (n + (content (b :: next)).length) max := by
        simp only [content, List.length_append, hcl]
        omega
      have e5 : (memcpy mem n b.mem b.filled).drop
            (min (n + b.filled + (content next).length) max) =
          mem.drop (min (n + b.filled + (content next).length) max) :=
        memcpy_drop _ _ _ _ _ (by omega) hb (by omega)
      rw [e2, e3, e5, e4]
      simp only [e1, List.append_assoc]

theorem flush_length (ch : Chain) : (charbuffer_flush ch).length = ch.length := by
  induction ch with
  | nil => rfl
  | cons b next ih => simp [charbuffer_flush, ih]

theorem flush_sizes (ch : Chain) :
    (charbuffer_flush ch).map charbuffer.size = ch.map charbuffer.size := by
  induction ch with
  | nil => rfl
  | cons b next ih => simp [charbuffer_flush, ih]

theorem flush_all_empty (ch : Chain) : AllEmpty (charbuffer_flush ch) := by
  induction ch with
  | nil => intro x hx; cases hx
  | cons b next ih =>
    intro x hx
    simp only [charbuffer_flush] at hx
    rcases List.mem_cons.mp hx with rfl | hx
    · rfl
    · exact ih x hx

theorem flush_node_ok (ch : Chain) (h : ∀ b ∈ ch, node_ok b) :
    ∀ b ∈ charbuffer_flush ch, node_ok b := by
  induction ch with
  | nil => intro x hx; cases hx
  | cons b next ih =>
    intro x hx
    simp only [charbuffer_flush] at hx
    rcases List.mem_cons.mp hx with rfl | hx
    · obtain ⟨h1, _, h3⟩ := h b (List.mem_cons_self _ _)
      exact ⟨h1, Nat.zero_le _, h3⟩
    · exact ih (fun y hy => h y (List.mem_cons_of_mem _ hy)) x hx

theorem flush_ok (ch : Chain) (h : chain_ok ch) : chain_ok (charbuffer_flush ch) := by
  refine ⟨?_, flush_node_ok ch h.2.1, ?_⟩
  · intro he
    have := congrArg List.length he
    rw [flush_length] at this
    exact h.1 (List.length_eq_zero.mp this)
  · exact all_empty_shape _ (fun y hy => (flush_node_ok ch h.2.1 y hy).1) (flush_all_empty ch)

theorem materialize_ok (ch : Chain) (s mem : List Nat) (max : Nat) (h : chain_ok ch)
    (hc : content ch = s) (hmax : s.length ≤ max) (hmem : max ≤ mem.length) :
    charbuffer_length ch = s.length ∧
      charbuffer_to_buffer ch mem max = (true, s ++ mem.drop s.length) := by
  have hr := chain_ok_reads ch h
  refine ⟨by rw [length_eq_content ch hr, hc], ?_⟩
  unfold charbuffer_to_buffer
  rw [to_buffer_loop_spec ch mem max 0 (Nat.zero_le _) hmem hr, hc]
  simp [hmax, List.take_of_length_le hmax]

/-! ## The claims -/

/-- C1 (round trip): for every block capacity `c > 0` and every byte sequence
`s`, appending the bytes of `s` one by one to a freshly created chain, by
`charbuffer_append_char` on the head or by `charbuffer_append_buffer`, never
returns `NULL` and yields a chain whose `charbuffer_length` is `|s|` and from
which `charbuffer_to_buffer`, with `max ≥ |s|`, returns true and writes exactly
the bytes of `s` in order, leaving the rest of the destination as it was. -/
theorem C1_round_trip (c : Nat) (hc : 0 < c) (s mem : List Nat) (max : Nat)
    (hmax : s.length ≤ max) (hmem : max ≤ mem.length) :
    (∃ ch, append_chars (charbuffer_alloc c) s = some ch ∧
      charbuffer_length ch = s.length ∧
      charbuffer_to_buffer ch mem max = (true, s ++ mem.drop s.length)) ∧
    (∃ ch k, charbuffer_append_buffer (charbuffer_alloc c) s = (ch, some k) ∧
      charbuffer_length ch = s.length ∧
      charbuffer_to_buffer ch mem max = (true, s ++ mem.drop s.length)) := by
  constructor
  · obtain ⟨ch, he, hok, hcont⟩ := append_chars_ok (charbuffer_alloc c) s (alloc_ok c hc)
    rw [alloc_content, List.nil_append] at hcont
    exact ⟨ch, he, materialize_ok ch s mem max hok hcont hmax hmem⟩
  · obtain ⟨ch, k, he, hok, hcont, _, _⟩ :=
      charbuffer_append_buffer_ok (charbuffer_alloc c) s (alloc_ok c hc)
    rw [alloc_content, List.nil_append] at hcont
    exact ⟨ch, k, he, materialize_ok ch s mem max hok hcont hmax hmem⟩

/-- Witness of C1: capacity 2, the bytes 1, 0, 3 (three bytes over two blocks,
one of them zero), a destination of four bytes and `max = 4`. -/
theorem C1_round_trip_witness :
    (0 < 2 ∧ [1, 0, 3].length ≤ 4 ∧ 4 ≤ [9, 9, 9, 9].length) ∧
    ((∃ ch, append_chars (charbuffer_alloc 2) [1, 0, 3] = some ch ∧
      charbuffer_length ch = [1, 0, 3].length ∧
      charbuffer_to_buffer ch [9, 9, 9, 9] 4 =
        (true, [1, 0, 3] ++ [9, 9, 9, 9].drop [1, 0, 3].length)) ∧
    (∃ ch k, charbuffer_append_buffer (charbuffer_alloc 2) [1, 0, 3] = (ch, some k) ∧
      charbuffer_length ch = [1, 0, 3].length ∧
      charbuffer_to_buffer ch [9, 9, 9, 9] 4 =
        (true, [1, 0, 3] ++ [9, 9, 9, 9].drop [1, 0, 3].length))) :=
  ⟨⟨by decide, by decide, by decide⟩,
    C1_round_trip 2 (by decide) [1, 0, 3] [9, 9, 9, 9] 4 (by decide) (by decide)⟩

/-- C2 (search completeness), evaluated where it fails: the chain built from
`charbuffer_alloc(4)` by appending "aab" has the logical content "aab", in
which "ab" occurs at index 1, and `charbuffer_contains_buffer` returns false
for the needle "ab". -/
theorem C2_contains_buffer_misses_occurrence :
    ∃ ch, append_chars (charbuffer_alloc 4) [97, 97, 98] = some ch ∧
      content ch = [97] ++ [97, 98] ++ [] ∧
      charbuffer_contains_buffer ch [97, 98] = (false, none) :=
  ⟨_, rfl, by decide, by decide⟩

/-- C3 (cross-boundary search location), evaluated where it fails: capacity 4,
the filler "xx" then "abcd" gives the blocks "xxab" and "cd"; the search for
"abcd" returns true and stores node 1 (the second block, where the match
ends) with offset 2, not node 0 (the block of the first matched byte) with
offset 2. -/
theorem C3_contains_buffer_reports_last_block :
    ∃ ch, append_chars (charbuffer_alloc 4) [120, 120, 97, 98, 99, 100] = some ch ∧
      ch.map (fun b => b.mem.take b.filled) = [[120, 120, 97, 98], [99, 100]] ∧
      charbuffer_contains_buffer ch [97, 98, 99, 100] = (true, some (1, 2)) :=
  ⟨_, rfl, by decide, by decide⟩

/-- C4 (appendFrom with an offset), evaluated where it fails: the source built
with capacity 2 from "abcd" (blocks "ab", "cd") appended with offset 1 to an
empty destination leaves the destination with the content "bd", not "bcd":
the offset is applied again in the second block. -/
theorem C4_append_charbuffer_offset_reapplied :
    ∃ src, append_chars (charbuffer_alloc 2) [97, 98, 99, 100] = some src ∧
      content src = [97, 98, 99, 100] ∧
      content (charbuffer_append_charbuffer (charbuffer_alloc 4) src 1).buffer = [98, 100] ∧
      (content src).drop 1 = [98, 99, 100] :=
  ⟨_, rfl, by decide, by decide, by decide⟩

/-- C5 (appendFrom at offset 0): for a destination chain as the buffer
operations produce it and a separate source chain whose filled counts lie
within its memory, `charbuffer_append_charbuffer(dest, src, 0)` returns a node
(not `NULL`), makes the content of `dest` its old content followed by the
content of `src`, increases `charbuffer_length(dest)` by
`charbuffer_length(src)`, and leaves the source chain as it was. -/
theorem C5_append_charbuffer_zero (dest src : Chain) (hd : chain_ok dest)
    (hs : ∀ s ∈ src, s.filled ≤ s.mem.length) :
    ∃ ch k, charbuffer_append_charbuffer dest src 0 =
        { buffer := ch, ret := some k, source := src } ∧
      content ch = content dest ++ content src ∧
      charbuffer_length ch = charbuffer_length dest + charbuffer_length src := by
  obtain ⟨ch, k, he, hok, hcont, _, _⟩ := charbuffer_append_charbuffer_ok dest src hd hs
  refine ⟨ch, k, he, hcont, ?_⟩
  rw [length_eq_content ch (chain_ok_reads ch hok), hcont,
    length_eq_content dest (chain_ok_reads dest hd), length_eq_content src hs,
    List.length_append]

/-- Witness of C5: a destination of capacity 2 holding 5, 6, 7 in two blocks
and a two-block source holding 1, 2 and 3. -/
theorem C5_append_charbuffer_zero_witness :
    (chain_ok [block_of [5, 6] 2, block_of [7] 2] ∧
      ∀ s ∈ [block_of [1, 2] 2, block_of [3] 2], s.filled ≤ s.mem.length) ∧
    ∃ ch k, charbuffer_append_charbuffer [block_of [5, 6] 2, block_of [7] 2]
        [block_of [1, 2] 2, block_of [3] 2] 0 =
        { buffer := ch, ret := some k, source := [block_of [1, 2] 2, block_of [3] 2] } ∧
      content ch = content [block_of [5, 6] 2, block_of [7] 2] ++
        content [block_of [1, 2] 2, block_of [3] 2] ∧
      charbuffer_length ch = charbuffer_length [block_of [5, 6] 2, block_of [7] 2] +
        charbuffer_length [block_of [1, 2] 2, block_of [3] 2] :=
  ⟨⟨by decide, by decide⟩,
    C5_append_charbuffer_zero [block_of [5, 6] 2, block_of [7] 2]
      [block_of [1, 2] 2, block_of [3] 2] (by decide) (by decide)⟩

/-- C6 (materialize with a limit): for every chain whose filled counts lie
within its memory and every `max` not beyond the destination,
`charbuffer_to_buffer` returns true exactly when
`charbuffer_length(chain) <= max`, and the destination afterwards is the first
`min(length, max)` bytes of the logical sequence followed by the old
destination from index `min(length, max)` on: nothing at or beyond index `max`
is written. -/
theorem C6_to_buffer_limit (ch : Chain) (mem : List Nat) (max : Nat)
    (hmem : max ≤ mem.length) (hr : ∀ b ∈ ch, b.filled ≤ b.mem.length) :
    charbuffer_to_buffer ch mem max =
      (decide (charbuffer_length ch ≤ max),
        (content ch).take (min (charbuffer_length ch) max) ++
          mem.drop (min (charbuffer_length ch) max)) := by
  unfold charbuffer_to_buffer
  rw [to_buffer_loop_spec ch mem max 0 (Nat.zero_le _) hmem hr, length_eq_content ch hr]
  have : (content ch).take (min (content ch).length max) = (content ch).take max := by
    rw [← List.take_take]
    simp
  simp [this]

/-- Witness of C6: two blocks holding 1, 2 and 3, a destination of four bytes
and `max = 2`, a truncating call. -/
theorem C6_to_buffer_limit_witness :
    (2 ≤ [9, 9, 9, 9].length ∧
      ∀ b ∈ [block_of [1, 2] 2, block_of [3] 2], b.filled ≤ b.mem.length) ∧
    charbuffer_to_buffer [block_of [1, 2] 2, block_of [3] 2] [9, 9, 9, 9] 2 =
      (decide (charbuffer_length [block_of [1, 2] 2, block_of [3] 2] ≤ 2),
        (content [block_of [1, 2] 2, block_of [3] 2]).take
            (min (charbuffer_length [block_of [1, 2] 2, block_of [3] 2]) 2) ++
          [9, 9, 9, 9].drop (min (charbuffer_length [block_of [1, 2] 2, block_of [3] 2]) 2)) :=
  ⟨⟨by decide, by decide⟩,
    C6_to_buffer_limit [block_of [1, 2] 2, block_of [3] 2] [9, 9, 9, 9] 2
      (by decide) (by decide)⟩

/-- C7 (truncate grows), evaluated where it fails: on the empty single-block
chain of capacity 4, `charbuffer_truncate(chain, 10)` returns false and leaves
the chain as it was, of potential 4. -/
theorem C7_truncate_does_not_grow :
    charbuffer_truncate (charbuffer_alloc 4) 10 = (false, charbuffer_alloc 4) ∧
      charbuffer_potential (charbuffer_truncate (charbuffer_alloc 4) 10).2 = 4 :=
  ⟨by decide, by decide⟩

/-- C8 (truncate to zero): for every non-null chain, `charbuffer_truncate(chain,
0)` returns true and leaves the head node alone in the chain, with its size,
filled count and memory as before; the length is then the head's filled count
and the potential the head's size. -/
theorem C8_truncate_zero (b : charbuffer) (next : Chain) :
    charbuffer_truncate (b :: next) 0 = (true, [b]) ∧
      charbuffer_length (charbuffer_truncate (b :: next) 0).2 = b.filled ∧
      charbuffer_potential (charbuffer_truncate (b :: next) 0).2 = b.size ∧
      content (charbuffer_truncate (b :: next) 0).2 = b.mem.take b.filled := by
  simp [charbuffer_truncate, truncate_zero, charbuffer_length, charbuffer_potential, content]

/-- C9 (flush and reuse): for every chain built from `charbuffer_alloc(c)` by
appending a byte sequence `t`, `charbuffer_flush` keeps the number of blocks
and every block size and brings the length to 0; appending any `s` from the
head afterwards never returns `NULL` and gives `charbuffer_length = |s|` and
a chain that `charbuffer_to_buffer` copies out as exactly `s`. -/
theorem C9_flush_reuse (c : Nat) (hc : 0 < c) (t s mem : List Nat) (max : Nat)
    (hmax : s.length ≤ max) (hmem : max ≤ mem.length) :
    ∃ ch, append_chars (charbuffer_alloc c) t = some ch ∧
      (charbuffer_flush ch).length = ch.length ∧
      (charbuffer_flush ch).map charbuffer.size = ch.map charbuffer.size ∧
      charbuffer_length (charbuffer_flush ch) = 0 ∧
      ∃ ch2, append_chars (charbuffer_flush ch) s = some ch2 ∧
        charbuffer_length ch2 = s.length ∧
        charbuffer_to_buffer ch2 mem max = (true, s ++ mem.drop s.length) := by
  obtain ⟨ch, he, hok, _⟩ := append_chars_ok (charbuffer_alloc c) t (alloc_ok c hc)
  have hfl := flush_ok ch hok
  have hfc : content (charbuffer_flush ch) = [] := content_all_empty _ (flush_all_empty ch)
  obtain ⟨ch2, he2, hok2, hcont2⟩ := append_chars_ok (charbuffer_flush ch) s hfl
  rw [hfc, List.nil_append] at hcont2
  refine ⟨ch, he, flush_length ch, flush_sizes ch, ?_, ch2, he2,
    materialize_ok ch2 s mem max hok2 hcont2 hmax hmem⟩
  rw [length_eq_content _ (chain_ok_reads _ hfl), hfc]
  rfl

/-- Witness of C9: capacity 2, five bytes appended (three blocks), flushed,
then the bytes 7, 8, 9 appended and copied out with `max = 4`. -/
theorem C9_flush_reuse_witness :
    (0 < 2 ∧ [7, 8, 9].length ≤ 4 ∧ 4 ≤ [0, 0, 0, 0].length) ∧
    ∃ ch, append_chars (charbuffer_alloc 2) [1, 2, 3, 4, 5] = some ch ∧
      (charbuffer_flush ch).length = ch.length ∧
      (charbuffer_flush ch).map charbuffer.size = ch.map charbuffer.size ∧
      charbuffer_length (charbuffer_flush ch) = 0 ∧
      ∃ ch2, append_chars (charbuffer_flush ch) [7, 8, 9] = some ch2 ∧
        charbuffer_length ch2 = [7, 8, 9].length ∧
        charbuffer_to_buffer ch2 [0, 0, 0, 0] 4 =
          (true, [7, 8, 9] ++ [0, 0, 0, 0].drop [7, 8, 9].length) :=
  ⟨⟨by decide, by decide, by decide⟩,
    C9_flush_reuse 2 (by decide) [1, 2, 3, 4, 5] [7, 8, 9] [0, 0, 0, 0] 4
      (by decide) (by decide)⟩

/-- C10 (printability rule): for every byte `b` and every value of the flag
`treatWhitespacesPrintable`, `is_printable(b)` is true if and only if
`0x20 <= b <= 0x7E`, or the flag is set and `b` is newline (0x0A), carriage
return (0x0D), tab (0x09) or space (0x20). -/
theorem C10_is_printable (args : program_args) (b : Nat) (hb : b < 256) :
    is_printable args (char_to_int b) = true ↔
      (0x20 ≤ b ∧ b ≤ 0x7E) ∨
        (args.treatWhitespacesPrintable = true ∧
          (b = 0x0A ∨ b = 0x0D ∨ b = 0x09 ∨ b = 0x20)) := by
  unfold is_printable isprint char_to_int
  cases hw : args.treatWhitespacesPrintable
  · by_cases h : b < 128
    · simp only [h, if_true, Bool.false_eq_true, false_and, if_false, decide_eq_true_eq, or_false]
      omega
    · simp only [h, if_false, Bool.false_eq_true, false_and, decide_eq_true_eq, or_false]
      omega
  · by_cases h : b < 128
    · simp only [h, if_true, true_and, decide_eq_true_eq]
      split_ifs with h2
      · simp only [true_iff]
        omega
      · simp only [decide_eq_true_eq]
        omega
    · simp only [h, if_false, true_and, decide_eq_true_eq]
      split_ifs with h2
      · omega
      · simp only [decide_eq_true_eq]
        omega

/-- Witness of C10: the tab byte with the whitespace flag set. -/
theorem C10_is_printable_witness :
    (9 < 256) ∧
    (is_printable ⟨[], 0, 0, 0, 0, 0, true, 1024, false⟩ (char_to_int 9) = true ↔
      (0x20 ≤ 9 ∧ 9 ≤ 0x7E) ∨
        ((⟨[], 0, 0, 0, 0, 0, true, 1024, false⟩ : program_args).treatWhitespacesPrintable
            = true ∧
          (9 = 0x0A ∨ 9 = 0x0D ∨ 9 = 0x09 ∨ 9 = 0x20))) :=
  ⟨by decide, C10_is_printable ⟨[], 0, 0, 0, 0, 0, true, 1024, false⟩ 9 (by decide)⟩

/-! ## Lemmas on the scan -/

theorem from_node_ok (ch sub : Chain) (k j : Nat) (h : chain_ok ch) (hk : k < ch.length)
    (hfull : AllFull (ch.take k)) (hsub : chain_ok sub) (hj : j < sub.length)
    (hjfull : AllFull (sub.take j)) :
    chain_ok (ch.take k ++ sub) ∧ ptr_ok (ch.take k ++ sub) (some (j + k)) := by
  have hlen : (ch.take k).length = k := by
    rw [List.length_take]
    omega
  refine ⟨chain_ok_rejoin ch sub k h hfull hsub, j + k, rfl, ?_, ?_⟩
  · rw [List.length_append, hlen]
    omega
  · have : (ch.take k ++ sub).take (j + k) = ch.take k ++ sub.take j := by
      rw [List.take_append_eq_append_take, hlen]
      have h1 : (ch.take k).take (j + k) = ch.take k := by
        rw [List.take_take]
        congr 1
        omega
      rw [h1]
      congr 2
      omega
    rw [this]
    intro y hy
    rcases List.mem_append.mp hy with hy | hy
    · exact hfull y hy
    · exact hjfull y hy

theorem append_char_at_ok (ch : Chain) (p : Option Nat) (c : Nat) (h : chain_ok ch)
    (hp : ptr_ok ch p) :
    ∃ ch1 k, append_char_at ch p c = (ch1, some k) ∧ chain_ok ch1 ∧
      content ch1 = content ch ++ [c] ∧ ptr_ok ch1 (some k) := by
  obtain ⟨k, rfl, hk, hfull⟩ := hp
  obtain ⟨sub, j, he, hok, hc, hj, hjfull⟩ :=
    charbuffer_append_char_ok (ch.drop k) c (chain_ok_drop ch k h hk)
  obtain ⟨hok2, hp2⟩ := from_node_ok ch sub k j h hk hfull hok hj hjfull
  refine ⟨ch.take k ++ sub, j + k, ?_, hok2, ?_, hp2⟩
  · simp only [append_char_at, he, from_node, Option.map_some']
  · rw [content_append, hc, ← List.append_assoc, content_take_drop]

theorem head_ptr_ok (ch : Chain) (h : chain_ok ch) : ptr_ok ch (head_ptr ch) := by
  cases ch with
  | nil => exact absurd rfl h.1
  | cons b next =>
    refine ⟨0, rfl, by simp, ?_⟩
    intro y hy
    simp at hy

theorem head_ptr_flush (ch : Chain) : head_ptr (charbuffer_flush ch) = head_ptr ch := by
  cases ch <;> rfl

theorem flush_content (ch : Chain) : content (charbuffer_flush ch) = [] :=
  content_all_empty _ (flush_all_empty ch)

theorem scan_branch_run (args : program_args) (st : scan_state) (b : Nat) :
    scan_branch args st b = run_branch args (run_of st) b := rfl

theorem scan_byte_run (args : program_args) (o : Nat) (st : scan_state) (b : Nat)
    (h : scan_ok st) :
    scan_ok (scan_byte args o st b) ∧
      run_of (scan_byte args o st b) = run_byte args o (run_of st) b := by
  obtain ⟨hp, hu, hpp, hup⟩ := h
  have hbr := scan_branch_run args st b
  cases hb : scan_branch args st b with
  | append =>
    rw [hb] at hbr
    obtain ⟨ch1, k, he, hok1, hc1, hk1, hf1⟩ :=
      charbuffer_append_charbuffer_ok st.printable st.unprintable hp (chain_ok_reads _ hu)
    obtain ⟨ch2, k2, he2, hok2, hc2, hp2⟩ :=
      append_char_at_ok ch1 (some k) b hok1 ⟨k, rfl, hk1, hf1⟩
    have hfl := flush_ok st.unprintable hu
    have hhp : ptr_ok (charbuffer_flush st.unprintable) (head_ptr st.unprintable) := by
      rw [← head_ptr_flush]
      exact head_ptr_ok _ hfl
    constructor
    · simp only [scan_byte, hb, he, he2]
      exact ⟨hok2, hfl, hp2, hhp⟩
    · simp only [run_byte, ← hbr]
      simp only [scan_byte, hb, he, he2, run_of, hc2, hc1, flush_content]
  | close =>
    rw [hb] at hbr
    have hfp := flush_ok st.printable hp
    have hfu := flush_ok st.unprintable hu
    constructor
    · simp only [scan_byte, hb]
      refine ⟨hfp, hfu, ?_, ?_⟩
      · show ptr_ok (charbuffer_flush st.printable) (head_ptr st.printable)
        rw [← head_ptr_flush]
        exact head_ptr_ok _ hfp
      · show ptr_ok (charbuffer_flush st.unprintable) (head_ptr st.unprintable)
        rw [← head_ptr_flush]
        exact head_ptr_ok _ hfu
    · simp only [run_byte, ← hbr]
      simp only [scan_byte, hb, run_of, flush_content, List.map_append,
        List.map_cons, List.map_nil, run_closure_of]
  | stage =>
    rw [hb] at hbr
    obtain ⟨ch2, k2, he2, hok2, hc2, hp2⟩ :=
      append_char_at_ok st.unprintable st.unprintableOpt b hu hup
    constructor
    · simp only [scan_byte, hb, he2]
      exact ⟨hp, hok2, hpp, hp2⟩
    · simp only [run_byte, ← hbr]
      simp only [scan_byte, hb, he2, run_of, hc2]

theorem scan_for_run (args : program_args) (s : Nat) (input : List Nat) (i : Nat)
    (st : scan_state) (h : scan_ok st) :
    scan_ok (scan_for args s input i st) ∧
      run_of (scan_for args s input i st) = run_for args s input i (run_of st) := by
  induction input generalizing i st with
  | nil => exact ⟨h, rfl⟩
  | cons b rest ih =>
    obtain ⟨hok, hrun⟩ := scan_byte_run args (s + i) st b h
    obtain ⟨hok2, hrun2⟩ := ih (i + 1) (scan_byte args (s + i) st b) hok
    exact ⟨hok2, by simp only [scan_for, run_for, hrun2, hrun]⟩

theorem scan_for_append (args : program_args) (s : Nat) (a b : List Nat) (i : Nat)
    (st : scan_state) :
    scan_for args s (a ++ b) i st = scan_for args s b (i + a.length) (scan_for args s a i st) := by
  induction a generalizing i st with
  | nil => rfl
  | cons x xs ih =>
    show scan_for args s (xs ++ b) (i + 1) (scan_byte args (s + i) st x) =
      scan_for args s b (i + (xs.length + 1)) (scan_for args s xs (i + 1) (scan_byte args (s + i) st x))
    rw [ih]
    congr 1
    omega

theorem scan_for_shift (args : program_args) (s n : Nat) (b : List Nat) (i : Nat)
    (st : scan_state) :
    scan_for args s b (i + n) st = scan_for args (s + n) b i st := by
  induction b generalizing i st with
  | nil => rfl
  | cons x xs ih =>
    simp only [scan_for]
    have h1 : i + n + 1 = (i + 1) + n := by omega
    have h2 : s + (i + n) = s + n + i := by omega
    rw [h1, h2, ih]

theorem scan_for_snoc (args : program_args) (s : Nat) (pre : List Nat) (b : Nat)
    (st : scan_state) :
    scan_for args s (pre ++ [b]) 0 st =
      scan_byte args (s + pre.length) (scan_for args s pre 0 st) b := by
  rw [scan_for_append]
  simp only [scan_for, Nat.zero_add]

theorem skip_loop_spec (n fuel skipped : Nat) (h1 : skipped ≤ n) (h2 : n - skipped < fuel) :
    skip_loop n fuel skipped = n := by
  induction fuel generalizing skipped with
  | zero => omega
  | succ fuel ih =>
    unfold skip_loop
    split
    · split
      · apply ih <;> omega
      · apply ih <;> omega
    · omega

theorem skip_loop_eq (n : Nat) : skip_loop n (n + 1) 0 = n :=
  skip_loop_spec n (n + 1) 0 (Nat.zero_le _) (by omega)

theorem ptr_ok_some (ch : Chain) (p : Option Nat) (h : ptr_ok ch p) : p.isSome = true := by
  obtain ⟨k, rfl, _⟩ := h
  rfl

theorem take_take_length (B : Nat) (fp : List Nat) :
    fp.take (fp.take B).length = fp.take B := by
  rw [List.length_take]
  rcases Nat.le_total B fp.length with h | h
  · rw [Nat.min_eq_left h]
  · rw [Nat.min_eq_right h, List.take_of_length_le h, List.take_of_length_le (Nat.le_refl _)]

theorem take_chunk_add (B n : Nat) (fp : List Nat) :
    fp.take ((fp.take B).length + n) = fp.take B ++ (fp.drop B).take n := by
  rw [List.take_add, take_take_length, List.length_take]
  rcases Nat.le_total B fp.length with h | h
  · rw [Nat.min_eq_left h]
  · rw [Nat.min_eq_right h, List.drop_of_length_le h, List.drop_of_length_le (Nat.le_refl _)]

theorem scan_while_chunks (args : program_args) (hb : 0 < args.bufSize) (fuel : Nat)
    (fp : List Nat) (s : Nat) (st : scan_state) (h : scan_ok st) (hf : fp.length < fuel) :
    ∃ n, n ≤ fp.length ∧ (args.nUntil = 0 → n = fp.length) ∧
      scan_while args fuel fp s st = scan_for args s (fp.take n) 0 st := by
  induction fuel generalizing fp s st with
  | zero => omega
  | succ fuel ih =>
    have hsome : st.printableOpt.isSome = true ∧ st.unprintableOpt.isSome = true :=
      ⟨ptr_ok_some _ _ h.2.2.1, ptr_ok_some _ _ h.2.2.2⟩
    have hlen : (fp.take args.bufSize).length = min args.bufSize fp.length := List.length_take _ _
    unfold scan_while
    rw [if_pos hsome]
    by_cases hz : (fp.take args.bufSize).length ≤ 0
    · rw [if_pos hz]
      have hnil : fp = [] := by
        cases fp with
        | nil => rfl
        | cons x xs =>
          simp only [List.length_cons] at hlen
          omega
      subst hnil
      exact ⟨0, by simp, by simp, rfl⟩
    · rw [if_neg hz]
      have hpos : 0 < fp.length := by omega
      by_cases hu : args.nUntil ≠ 0 ∧ s + (fp.take args.bufSize).length > args.nUntil
      · refine ⟨(fp.take args.bufSize).length, by omega, fun h0 => absurd h0 hu.1, ?_⟩
        simp only [if_pos hu, take_take_length]
      · obtain ⟨n, hn, hn0, he⟩ := ih (fp.drop args.bufSize)
          (s + (fp.take args.bufSize).length)
          (scan_for args s (fp.take args.bufSize) 0 st)
          (scan_for_run args s _ 0 st h).1 (by rw [List.length_drop]; omega)
        rw [List.length_drop] at hn hn0
        refine ⟨(fp.take args.bufSize).length + n, by omega,
          fun h0 => by have := hn0 h0; omega, ?_⟩
        simp only [if_neg hu, he]
        rw [take_chunk_add, scan_for_append, Nat.zero_add, ← scan_for_shift, Nat.zero_add]

theorem scan_init_ok (c : Nat) (hc : 0 < c) :
    scan_ok (scan_init (charbuffer_alloc c) (charbuffer_alloc c)) :=
  ⟨alloc_ok c hc, alloc_ok c hc, head_ptr_ok _ (alloc_ok c hc), head_ptr_ok _ (alloc_ok c hc)⟩

theorem scan_init_run (c : Nat) :
    run_of (scan_init (charbuffer_alloc c) (charbuffer_alloc c)) = run_init := by
  simp only [run_of, scan_init, alloc_content, run_init, List.map_nil]

theorem scan_file_eq (args : program_args) (fp : List Nat) (hb : 0 < args.bufSize) :
    scan_file args fp =
      some (scan_while args (fp.length + 1) (fp.drop args.nSkipBytes) args.nSkipBytes
        (scan_init (charbuffer_alloc args.bufSize) (charbuffer_alloc args.bufSize))) := by
  unfold scan_file
  rw [skip_loop_eq, alloc_pos _ hb]

theorem scan_file_single_pass (args : program_args) (fp : List Nat) (hb : 0 < args.bufSize) :
    ∃ n, n ≤ (fp.drop args.nSkipBytes).length ∧
      (args.nUntil = 0 → n = (fp.drop args.nSkipBytes).length) ∧
      scan_file args fp =
        some (scan_for args args.nSkipBytes ((fp.drop args.nSkipBytes).take n) 0
          (scan_init (charbuffer_alloc args.bufSize) (charbuffer_alloc args.bufSize))) := by
  obtain ⟨n, hn, hn0, he⟩ := scan_while_chunks args hb (fp.length + 1)
    (fp.drop args.nSkipBytes) args.nSkipBytes _ (scan_init_ok args.bufSize hb)
    (by rw [List.length_drop]; omega)
  exact ⟨n, hn, hn0, by rw [scan_file_eq args fp hb, he]⟩

theorem scan_byte_closures (args : program_args) (o : Nat) (st : scan_state) (b : Nat)
    (e : closure_event) (he : e ∈ (scan_byte args o st b).closures) :
    e ∈ st.closures ∨
      (scan_branch args st b = scan_branch_kind.close ∧ e.byteOffset = o ∧
        e.printable = st.printable) := by
  cases hb : scan_branch args st b with
  | append =>
    simp only [scan_byte, hb] at he
    exact Or.inl he
  | close =>
    simp only [scan_byte, hb, List.mem_append, List.mem_singleton] at he
    rcases he with he | he
    · exact Or.inl he
    · subst he
      exact Or.inr ⟨rfl, rfl, rfl⟩
  | stage =>
    simp only [scan_byte, hb] at he
    exact Or.inl he

theorem scan_for_closures (args : program_args) (s : Nat) (input : List Nat) (st : scan_state)
    (e : closure_event) (he : e ∈ (scan_for args s input 0 st).closures) :
    e ∈ st.closures ∨ ∃ j b, input[j]? = some b ∧ e.byteOffset = s + j ∧
      scan_branch args (scan_for args s (input.take j) 0 st) b = scan_branch_kind.close ∧
      e.printable = (scan_for args s (input.take j) 0 st).printable := by
  induction input using List.reverseRecOn with
  | nil => exact Or.inl he
  | append_singleton pre b ih =>
    rw [scan_for_snoc] at he
    rcases scan_byte_closures args _ _ b e he with h | ⟨h1, h2, h3⟩
    · rcases ih h with h | ⟨j, c, hj, h2, h3, h4⟩
      · exact Or.inl h
      · have hjlt : j < pre.length := by
          by_contra hcon
          rw [List.getElem?_eq_none (by omega)] at hj
          cases hj
        refine Or.inr ⟨j, c, ?_, h2, ?_, ?_⟩
        · rw [List.getElem?_append_left hjlt]
          exact hj
        · rw [List.take_append_of_le_length (by omega)]
          exact h3
        · rw [List.take_append_of_le_length (by omega)]
          exact h4
    · refine Or.inr ⟨pre.length, b, by simp, h2, ?_, ?_⟩
      · rw [List.take_left]
        exact h1
      · rw [List.take_left]
        exact h3

theorem run_for_append (args : program_args) (s : Nat) (a b : List Nat) (i : Nat)
    (rs : run_state) :
    run_for args s (a ++ b) i rs = run_for args s b (i + a.length) (run_for args s a i rs) := by
  induction a generalizing i rs with
  | nil => rfl
  | cons x xs ih =>
    show run_for args s (xs ++ b) (i + 1) (run_byte args (s + i) rs x) =
      run_for args s b (i + (xs.length + 1)) (run_for args s xs (i + 1) (run_byte args (s + i) rs x))
    rw [ih]
    congr 1
    omega

theorem run_byte_append (args : program_args) (o : Nat) (rs : run_state) (c : Nat)
    (hc : is_printable args (char_to_int c) = true)
    (hbud : args.resultMaxSize = 0 ∨ rs.printableCount ≤ args.resultMaxSize) :
    run_byte args o rs c =
      { rs with
        printable := rs.printable ++ rs.unprintable ++ [c]
        unprintable := []
        unprintableCount := 0
        printableCount := rs.printableCount + 1
        currChunkSize := (if rs.prevPrintable = false then 0 else rs.currChunkSize) + 1
        prevPrintable := true } := by
  have hbr : run_branch args rs c = scan_branch_kind.append := by
    unfold run_branch
    rw [if_pos ⟨hc, hbud⟩]
  simp only [run_byte, hbr, hc]

theorem run_byte_stage (args : program_args) (o : Nat) (rs : run_state) (u : Nat)
    (hu : is_printable args (char_to_int u) = false)
    (hcnt : rs.unprintableCount ≤ args.nUnprintablesAllowed) :
    run_byte args o rs u =
      { rs with
        unprintable := rs.unprintable ++ [u]
        unprintableCount := rs.unprintableCount + 1
        prevPrintable := false } := by
  have hbr : run_branch args rs u = scan_branch_kind.stage := by
    unfold run_branch
    rw [if_neg (by simp [hu]), if_neg (by omega)]
  simp only [run_byte, hbr, hu]

theorem run_for_printables (args : program_args) (s : Nat)
    (P : List Nat) (hP : ∀ p ∈ P, is_printable args (char_to_int p) = true) (i : Nat)
    (rs : run_state) (h1 : rs.unprintable = []) (h2 : rs.unprintableCount = 0)
    (hm : args.resultMaxSize = 0 ∨ rs.printableCount + P.length ≤ args.resultMaxSize + 1) :
    (run_for args s P i rs).printable = rs.printable ++ P ∧
      (run_for args s P i rs).unprintable = [] ∧
      (run_for args s P i rs).unprintableCount = 0 ∧
      (run_for args s P i rs).printableCount = rs.printableCount + P.length ∧
      (run_for args s P i rs).closures = rs.closures := by
  induction P generalizing i rs with
  | nil => exact ⟨by simp [run_for], h1, h2, rfl, rfl⟩
  | cons p ps ih =>
    have hp := hP p (List.mem_cons_self _ _)
    have hps : ∀ q ∈ ps, is_printable args (char_to_int q) = true :=
      fun q hq => hP q (List.mem_cons_of_mem _ hq)
    simp only [List.length_cons] at hm
    have hstep := run_byte_append args (s + i) rs p hp (by omega)
    obtain ⟨e1, e2, e3, e4, e5⟩ := ih hps (i + 1) (run_byte args (s + i) rs p)
      (by rw [hstep]) (by rw [hstep])
      (by rw [hstep]; show _ ∨ rs.printableCount + 1 + ps.length ≤ _; omega)
    simp only [run_for]
    refine ⟨?_, e2, e3, ?_, ?_⟩
    · rw [e1, hstep, h1]
      simp
    · rw [e4, hstep]
      simp only [List.length_cons]
      omega
    · rw [e5, hstep]

theorem run_for_unprintables (args : program_args) (s : Nat) (U : List Nat)
    (hU : ∀ u ∈ U, is_printable args (char_to_int u) = false) (i : Nat) (rs : run_state)
    (hcnt : rs.unprintableCount + U.length ≤ args.nUnprintablesAllowed + 1) :
    (run_for args s U i rs).printable = rs.printable ∧
      (run_for args s U i rs).unprintable = rs.unprintable ++ U ∧
      (run_for args s U i rs).unprintableCount = rs.unprintableCount + U.length ∧
      (run_for args s U i rs).printableCount = rs.printableCount ∧
      (run_for args s U i rs).closures = rs.closures := by
  induction U generalizing i rs with
  | nil => exact ⟨rfl, by simp [run_for], rfl, rfl, rfl⟩
  | cons u us ih =>
    have hu := hU u (List.mem_cons_self _ _)
    have hus : ∀ q ∈ us, is_printable args (char_to_int q) = false :=
      fun q hq => hU q (List.mem_cons_of_mem _ hq)
    simp only [List.length_cons] at hcnt
    have hstep := run_byte_stage args (s + i) rs u hu (by omega)
    obtain ⟨e1, e2, e3, e4, e5⟩ := ih hus (i + 1) (run_byte args (s + i) rs u)
      (by rw [hstep]; show rs.unprintableCount + 1 + us.length ≤ _; omega)
    simp only [run_for]
    refine ⟨?_, ?_, ?_, ?_, ?_⟩
    · rw [e1, hstep]
    · rw [e2, hstep]
      simp
    · rw [e3, hstep]
      simp only [List.length_cons]
      omega
    · rw [e4, hstep]
    · rw [e5, hstep]

theorem run_for_tolerated (args : program_args) (s : Nat) (P U : List Nat) (c : Nat)
    (hm : args.resultMaxSize = 0 ∨ P.length ≤ args.resultMaxSize)
    (hP : ∀ p ∈ P, is_printable args (char_to_int p) = true)
    (hU : ∀ u ∈ U, is_printable args (char_to_int u) = false)
    (hk : U.length ≤ args.nUnprintablesAllowed + 1)
    (hc : is_printable args (char_to_int c) = true) :
    (run_for args s (P ++ U ++ [c]) 0 run_init).printable = P ++ U ++ [c] ∧
      (run_for args s (P ++ U ++ [c]) 0 run_init).unprintable = [] ∧
      (run_for args s (P ++ U ++ [c]) 0 run_init).printableCount = P.length + 1 ∧
      (run_for args s (P ++ U ++ [c]) 0 run_init).closures = [] := by
  obtain ⟨a1, a2, a3, a4, a5⟩ := run_for_printables args s P hP 0 run_init rfl rfl
    (by rcases hm with h | h
        · exact Or.inl h
        · right
          show 0 + P.length ≤ _
          omega)
  obtain ⟨b1, b2, b3, b4, b5⟩ := run_for_unprintables args s U hU (0 + P.length)
    (run_for args s P 0 run_init) (by rw [a3]; omega)
  have hcount : (run_for args s U (0 + P.length) (run_for args s P 0 run_init)).printableCount =
      P.length := by
    rw [b4, a4]
    show 0 + P.length = P.length
    omega
  have hstep := fun o => run_byte_append args o
    (run_for args s U (0 + P.length) (run_for args s P 0 run_init)) c hc
    (by rw [hcount]; exact hm)
  rw [run_for_append, run_for_append]
  simp only [run_for]
  rw [hstep]
  refine ⟨?_, rfl, ?_, ?_⟩
  · show (run_for args s U (0 + P.length) (run_for args s P 0 run_init)).printable ++
      (run_for args s U (0 + P.length) (run_for args s P 0 run_init)).unprintable ++ [c] = _
    rw [b1, b2, a1, a2]
    simp [run_init]
  · show (run_for args s U (0 + P.length) (run_for args s P 0 run_init)).printableCount + 1 = _
    rw [b4, a4]
    simp [run_init]
  · show (run_for args s U (0 + P.length) (run_for args s P 0 run_init)).closures = _
    rw [b5, a5]
    rfl

theorem scan_file_tolerated (args : program_args) (hb : 0 < args.bufSize)
    (hu : args.nUntil = 0) (X P U : List Nat) (c : Nat)
    (hm : args.resultMaxSize = 0 ∨ P.length ≤ args.resultMaxSize)
    (hX : X.length = args.nSkipBytes)
    (hP : ∀ p ∈ P, is_printable args (char_to_int p) = true)
    (hU : ∀ u ∈ U, is_printable args (char_to_int u) = false)
    (hk : U.length ≤ args.nUnprintablesAllowed + 1)
    (hc : is_printable args (char_to_int c) = true) :
    ∃ st, scan_file args (X ++ (P ++ U ++ [c])) = some st ∧
      content st.printable = P ++ U ++ [c] ∧ content st.unprintable = [] ∧
      st.printableCount = P.length + 1 ∧ st.closures = [] := by
  obtain ⟨n, _, hn0, he⟩ := scan_file_single_pass args (X ++ (P ++ U ++ [c])) hb
  have hd : (X ++ (P ++ U ++ [c])).drop args.nSkipBytes = P ++ U ++ [c] := by
    rw [← hX, List.drop_left]
  rw [hd] at he hn0
  rw [hn0 hu, List.take_length] at he
  obtain ⟨_, hrun⟩ := scan_for_run args args.nSkipBytes (P ++ U ++ [c]) 0 _
    (scan_init_ok args.bufSize hb)
  rw [scan_init_run] at hrun
  obtain ⟨r1, r2, r3, r4⟩ := run_for_tolerated args args.nSkipBytes P U c hm hP hU hk hc
  rw [← hrun] at r1 r2 r3 r4
  refine ⟨_, he, r1, r2, r3, ?_⟩
  simpa [run_of] using r4

theorem to_file_loop_spec (buffer : Chain) (fp : List Nat) (n : Nat) :
    to_file_loop buffer fp n = (fp ++ content buffer, n + charbuffer_length buffer) := by
  induction buffer generalizing fp n with
  | nil => simp [to_file_loop, content, charbuffer_length]
  | cons b next ih =>
    simp only [to_file_loop, ih, content, charbuffer_length, List.append_assoc, Nat.add_assoc]

theorem chunk_matches_iff (buffer : Chain) (terms : List (List Nat)) :
    chunk_matches buffer terms = true ↔
      ∃ t ∈ terms, (charbuffer_contains_string buffer t).1 = true := by
  induction terms with
  | nil => simp [chunk_matches]
  | cons t ts ih =>
    unfold chunk_matches
    split
    · rename_i h
      simp only [true_iff]
      exact ⟨t, List.mem_cons_self _ _, h⟩
    · rename_i h
      rw [ih]
      constructor
      · rintro ⟨x, hx, hxt⟩
        exact ⟨x, List.mem_cons_of_mem _ hx, hxt⟩
      · rintro ⟨x, hx, hxt⟩
        rcases List.mem_cons.mp hx with rfl | hx
        · exact absurd hxt h
        · exact ⟨x, hx, hxt⟩

theorem delimiter_line_eq : delimiter_line = List.replicate 36 62 ++ [10] := by decide

theorem chunk_accepted_eq (args : program_args) (buffer : Chain) (byteOffset : Nat)
    (outFile : List Nat) :
    chunk_accepted args buffer byteOffset outFile =
      if chunk_matches buffer args.searchTerms = true then
        (true, outFile ++ (print_llu byteOffset ++ [10] ++ delimiter_line ++ content buffer ++
          [10, 10]))
      else (false, outFile) := by
  unfold chunk_accepted
  split
  · cases buffer with
    | nil => simp [charbuffer_to_file, content]
    | cons b next =>
      simp only [charbuffer_to_file, to_file_loop_spec, List.append_assoc]
  · rfl

theorem run_byte_counts (args : program_args) (o : Nat) (rs : run_state) (b : Nat)
    (h : rs.unprintableCount = rs.unprintable.length ∧ rs.printableCount ≤ rs.printable.length) :
    (run_byte args o rs b).unprintableCount = (run_byte args o rs b).unprintable.length ∧
      (run_byte args o rs b).printableCount ≤ (run_byte args o rs b).printable.length := by
  obtain ⟨h1, h2⟩ := h
  cases hb : run_branch args rs b with
  | append =>
    refine ⟨by simp [run_byte, hb], ?_⟩
    simp only [run_byte, hb, List.length_append, List.length_singleton]
    omega
  | close => simp [run_byte, hb]
  | stage =>
    refine ⟨?_, ?_⟩
    · simp only [run_byte, hb, List.length_append, List.length_singleton]
      omega
    · simp only [run_byte, hb]
      exact h2

theorem run_for_counts (args : program_args) (s : Nat) (input : List Nat) (i : Nat)
    (rs : run_state)
    (h : rs.unprintableCount = rs.unprintable.length ∧ rs.printableCount ≤ rs.printable.length) :
    (run_for args s input i rs).unprintableCount = (run_for args s input i rs).unprintable.length ∧
      (run_for args s input i rs).printableCount ≤ (run_for args s input i rs).printable.length := by
  induction input generalizing i rs with
  | nil => exact h
  | cons b rest ih => exact ih (i + 1) _ (run_byte_counts args (s + i) rs b h)

theorem run_for_filler (args : program_args) (s i : Nat) (rs : run_state) (U : List Nat)
    (c : Nat) (h1 : rs.printable = []) (h2 : rs.unprintable = [])
    (hinv : rs.unprintableCount = rs.unprintable.length ∧
      rs.printableCount ≤ rs.printable.length)
    (hU : ∀ u ∈ U, is_printable args (char_to_int u) = false)
    (hk : U.length ≤ args.nUnprintablesAllowed + 1)
    (hc : is_printable args (char_to_int c) = true) :
    (run_for args s (U ++ [c]) i rs).printable = U ++ [c] ∧
      (run_for args s (U ++ [c]) i rs).printableCount = 1 ∧
      (run_for args s (U ++ [c]) i rs).closures = rs.closures := by
  have hu0 : rs.unprintableCount = 0 := by rw [hinv.1, h2]; rfl
  have hp0 : rs.printableCount = 0 := by
    have := hinv.2
    rw [h1] at this
    simpa using this
  obtain ⟨b1, b2, b3, b4, b5⟩ := run_for_unprintables args s U hU i rs (by omega)
  have hstep := fun o => run_byte_append args o (run_for args s U i rs) c hc
    (by rw [b4, hp0]; exact Or.inr (Nat.zero_le _))
  rw [run_for_append]
  simp only [run_for]
  rw [hstep]
  refine ⟨?_, ?_, ?_⟩
  · show (run_for args s U i rs).printable ++ (run_for args s U i rs).unprintable ++ [c] = _
    rw [b1, b2, h1, h2]
    simp
  · show (run_for args s U i rs).printableCount + 1 = 1
    rw [b4, hp0]
  · show (run_for args s U i rs).closures = _
    rw [b5]

theorem run_init_counts :
    run_init.unprintableCount = run_init.unprintable.length ∧
      run_init.printableCount ≤ run_init.printable.length := by
  simp [run_init]

/-! ## The claims on the scan -/

/-- C11 (whitespace switch), evaluated where it fails: with
`treatWhitespacesPrintable = false` (the option `-w`) the space byte 0x20 is
still classified as printable by `is_printable`, through `isprint`; newline,
carriage return and tab are not. -/
theorem C11_space_stays_printable :
    is_printable ⟨[], 0, 0, 0, 0, 0, false, 1024, false⟩ (char_to_int 0x20) = true ∧
      is_printable ⟨[], 0, 0, 0, 0, 0, false, 1024, false⟩ (char_to_int 0x0A) = false ∧
      is_printable ⟨[], 0, 0, 0, 0, 0, false, 1024, false⟩ (char_to_int 0x0D) = false ∧
      is_printable ⟨[], 0, 0, 0, 0, 0, false, 1024, false⟩ (char_to_int 0x09) = false := by
  decide

/-- C12 (tolerated interruption is embedded): for every `allowedInterrupt` and
an unbounded budget (`resultMaxSize = 0`), when the scanned input (after the
skipped bytes) is printable bytes `P1`, then `k` non-printable bytes `U` with
`k ≤ nUnprintablesAllowed` (so for `1 ≤ k` too), then a printable byte `c`,
`scan_file` takes the close branch on none of them and ends with the printable
buffer holding exactly `P1 ++ U ++ [c]` and `printableCount = |P1| + 1`. -/
theorem C12_tolerated_interruption (args : program_args) (X P1 U : List Nat) (c : Nat)
    (hb : 0 < args.bufSize) (hu : args.nUntil = 0) (hm : args.resultMaxSize = 0)
    (hX : X.length = args.nSkipBytes)
    (hP : ∀ p ∈ P1, is_printable args (char_to_int p) = true)
    (hU : ∀ u ∈ U, is_printable args (char_to_int u) = false)
    (hk : U.length ≤ args.nUnprintablesAllowed)
    (hc : is_printable args (char_to_int c) = true) :
    ∃ st, scan_file args (X ++ (P1 ++ U ++ [c])) = some st ∧ st.closures = [] ∧
      content st.printable = P1 ++ U ++ [c] ∧ st.printableCount = P1.length + 1 := by
  obtain ⟨st, he, h1, _, h3, h4⟩ :=
    scan_file_tolerated args hb hu X P1 U c (Or.inl hm) hX hP hU (by omega) hc
  exact ⟨st, he, h4, h1, h3⟩

/-- Witness of C12: `allowedInterrupt = 2` and the input "AB\0\0C", one run
"AB\0\0C" of printable count 3. -/
theorem C12_tolerated_interruption_witness :
    (0 < (⟨[[65]], 2, 0, 1, 0, 0, true, 128, false⟩ : program_args).bufSize ∧
      (⟨[[65]], 2, 0, 1, 0, 0, true, 128, false⟩ : program_args).nUntil = 0 ∧
      (⟨[[65]], 2, 0, 1, 0, 0, true, 128, false⟩ : program_args).resultMaxSize = 0 ∧
      ([] : List Nat).length =
        (⟨[[65]], 2, 0, 1, 0, 0, true, 128, false⟩ : program_args).nSkipBytes ∧
      (∀ p ∈ [65, 66],
        is_printable ⟨[[65]], 2, 0, 1, 0, 0, true, 128, false⟩ (char_to_int p) = true) ∧
      (∀ u ∈ [0, 0],
        is_printable ⟨[[65]], 2, 0, 1, 0, 0, true, 128, false⟩ (char_to_int u) = false) ∧
      [0, 0].length ≤
        (⟨[[65]], 2, 0, 1, 0, 0, true, 128, false⟩ : program_args).nUnprintablesAllowed ∧
      is_printable ⟨[[65]], 2, 0, 1, 0, 0, true, 128, false⟩ (char_to_int 67) = true) ∧
    ∃ st, scan_file ⟨[[65]], 2, 0, 1, 0, 0, true, 128, false⟩
        ([] ++ ([65, 66] ++ [0, 0] ++ [67])) = some st ∧ st.closures = [] ∧
      content st.printable = [65, 66] ++ [0, 0] ++ [67] ∧
      st.printableCount = [65, 66].length + 1 :=
  ⟨⟨by decide, by decide, by decide, by decide, by decide, by decide, by decide, by decide⟩,
    C12_tolerated_interruption ⟨[[65]], 2, 0, 1, 0, 0, true, 128, false⟩ [] [65, 66] [0, 0] 67
      (by decide) (by decide) (by decide) (by decide) (by decide) (by decide) (by decide)
      (by decide)⟩

/-- C13 (interruption bound), evaluated where it fails: with
`nUnprintablesAllowed = 1`, after the input "A\0\0" the tolerance buffer holds
2 bytes, and on the input "A\0\0B" the bytes 'A' and 'B', separated by 2
non-printable bytes, are in the same run "A\0\0B": no closure happened. -/
theorem C13_one_more_byte_tolerated :
    (scan_file ⟨[[65]], 1, 0, 0, 0, 0, true, 1024, false⟩ [65, 0, 0]).map
        (fun st => (charbuffer_length st.unprintable, st.unprintableCount, st.closures)) =
      some (2, 2, []) ∧
    (scan_file ⟨[[65]], 1, 0, 0, 0, 0, true, 1024, false⟩ [65, 0, 0, 66]).map
        (fun st => (content st.printable, st.closures)) =
      some ([65, 0, 0, 66], []) := by
  decide

/-- C14 (acceptance uses the longest sub-run), evaluated where it fails: with
`nUnprintablesAllowed = 1`, `minChunkSize = 3`, no budget and the search term
"HELLO", the input "HELLO\x01W\x01\x01\x01" closes one run "HELLO\x01W" on its
last byte; its longest uninterrupted printable stretch is "HELLO" (5 bytes),
but the value compared with `minChunkSize` is 1, the length of the last
stretch "W": the run is not a candidate and nothing is written. -/
theorem C14_last_stretch_decides :
    (scan_file ⟨[[72, 69, 76, 76, 79]], 1, 0, 3, 0, 0, true, 1024, false⟩
        [72, 69, 76, 76, 79, 1, 87, 1, 1, 1]).map
        (fun st => (st.closures.map
          (fun e => (e.byteOffset, content e.printable, e.maxChunkSize, e.accepted)),
          st.outFile)) =
      some ([(9, [72, 69, 76, 76, 79, 1, 87], 1, false)], []) := by
  decide

/-- C15 (end-to-end scenario), evaluated where it fails: scanning
"xx" + "HELLO" + "\x01\x01" + "WORLD" + "zz" from offset 0 with
`nUnprintablesAllowed = 2`, `minChunkSize = 3`, no budget and the search term
"WORLD" writes nothing: the input ends while the run "xxHELLO\x01\x01WORLDzz"
is still open, and no run is closed at the end of the input. Followed by four
non-printable bytes, the same input closes that run at offset 19 and writes
it. -/
theorem C15_open_run_is_not_emitted :
    (scan_file ⟨[[87, 79, 82, 76, 68]], 2, 0, 3, 0, 0, true, 1024, false⟩
        [120, 120, 72, 69, 76, 76, 79, 1, 1, 87, 79, 82, 76, 68, 122, 122]).map
        (fun st => (st.outFile, st.closures, content st.printable)) =
      some ([], [], [120, 120, 72, 69, 76, 76, 79, 1, 1, 87, 79, 82, 76, 68, 122, 122]) ∧
    (scan_file ⟨[[87, 79, 82, 76, 68]], 2, 0, 3, 0, 0, true, 1024, false⟩
        [120, 120, 72, 69, 76, 76, 79, 1, 1, 87, 79, 82, 76, 68, 122, 122, 1, 1, 1, 1]).map
        (fun st => st.outFile) =
      some (print_llu 19 ++ [10] ++ delimiter_line ++
        [120, 120, 72, 69, 76, 76, 79, 1, 1, 87, 79, 82, 76, 68, 122, 122] ++ [10, 10]) := by
  decide

/-- C16 (leading filler is dropped), refuted: with `nUnprintablesAllowed = 2`
the input "\x01\x01H" read from the start leaves the printable buffer holding
"\x01\x01H": the two non-printable bytes read while the printable buffer was
empty are in the run, in front of its first printable byte. -/
theorem C16_leading_filler_counterexample :
    (scan_file ⟨[[72]], 2, 0, 0, 0, 0, true, 1024, false⟩ [1, 1, 72]).map
        (fun st => (content st.printable, st.closures)) = some ([1, 1, 72], []) ∧
      is_printable ⟨[[72]], 2, 0, 0, 0, 0, true, 1024, false⟩ (char_to_int 1) = false ∧
      is_printable ⟨[[72]], 2, 0, 0, 0, 0, true, 1024, false⟩ (char_to_int 72) = true := by
  decide

/-- C16 as amended (leading filler is kept): non-printable bytes `U`, at most
`nUnprintablesAllowed` of them, read while both buffers are empty (at the start
of the scan, or after any bytes `Y` that leave them empty, such as a closure),
are copied into the printable buffer when the first printable byte `c` of the
run arrives: no closure happens on them and the run's content is `U ++ [c]`,
with `printableCount = 1`. -/
theorem C16_leading_filler_kept (args : program_args) (X Y U : List Nat) (c : Nat)
    (hb : 0 < args.bufSize) (hu : args.nUntil = 0) (hX : X.length = args.nSkipBytes)
    (hY : content (scan_for args args.nSkipBytes Y 0
        (scan_init (charbuffer_alloc args.bufSize) (charbuffer_alloc args.bufSize))).printable
          = [] ∧
      content (scan_for args args.nSkipBytes Y 0
        (scan_init (charbuffer_alloc args.bufSize) (charbuffer_alloc args.bufSize))).unprintable
          = [])
    (hU : ∀ u ∈ U, is_printable args (char_to_int u) = false)
    (hk : U.length ≤ args.nUnprintablesAllowed)
    (hc : is_printable args (char_to_int c) = true) :
    ∃ st, scan_file args (X ++ (Y ++ (U ++ [c]))) = some st ∧
      content st.printable = U ++ [c] ∧ st.printableCount = 1 ∧
      st.closures.length = (scan_for args args.nSkipBytes Y 0
        (scan_init (charbuffer_alloc args.bufSize)
          (charbuffer_alloc args.bufSize))).closures.length := by
  obtain ⟨n, _, hn0, he⟩ := scan_file_single_pass args (X ++ (Y ++ (U ++ [c]))) hb
  have hd : (X ++ (Y ++ (U ++ [c]))).drop args.nSkipBytes = Y ++ (U ++ [c]) := by
    rw [← hX, List.drop_left]
  rw [hd] at he hn0
  rw [hn0 hu, List.take_length] at he
  have hok := scan_init_ok args.bufSize hb
  obtain ⟨_, hrun⟩ := scan_for_run args args.nSkipBytes (Y ++ (U ++ [c])) 0 _ hok
  obtain ⟨_, hrunY⟩ := scan_for_run args args.nSkipBytes Y 0 _ hok
  rw [scan_init_run] at hrun hrunY
  rw [run_for_append] at hrun
  have hinv := run_for_counts args args.nSkipBytes Y 0 run_init run_init_counts
  obtain ⟨r1, r2, r3⟩ := run_for_filler args args.nSkipBytes (0 + Y.length)
    (run_for args args.nSkipBytes Y 0 run_init) U c
    (by rw [← hrunY]; exact hY.1) (by rw [← hrunY]; exact hY.2) hinv hU (by omega) hc
  rw [← hrun] at r1 r2 r3
  refine ⟨_, he, r1, r2, ?_⟩
  have := congrArg List.length r3
  rw [← hrunY] at this
  simpa [run_of] using this

/-- Witness of C16 as amended: `nUnprintablesAllowed = 1`; the bytes "A\0\0\0"
close a run and leave both buffers empty, then "\x01H" follows. -/
theorem C16_leading_filler_kept_witness :
    (0 < (⟨[[72]], 1, 0, 0, 0, 0, true, 128, false⟩ : program_args).bufSize ∧
      (⟨[[72]], 1, 0, 0, 0, 0, true, 128, false⟩ : program_args).nUntil = 0 ∧
      ([] : List Nat).length =
        (⟨[[72]], 1, 0, 0, 0, 0, true, 128, false⟩ : program_args).nSkipBytes ∧
      (content (scan_for ⟨[[72]], 1, 0, 0, 0, 0, true, 128, false⟩
          (⟨[[72]], 1, 0, 0, 0, 0, true, 128, false⟩ : program_args).nSkipBytes [65, 0, 0, 0] 0
          (scan_init
            (charbuffer_alloc (⟨[[72]], 1, 0, 0, 0, 0, true, 128, false⟩ : program_args).bufSize)
            (charbuffer_alloc
              (⟨[[72]], 1, 0, 0, 0, 0, true, 128, false⟩ : program_args).bufSize))).printable
            = [] ∧
        content (scan_for ⟨[[72]], 1, 0, 0, 0, 0, true, 128, false⟩
          (⟨[[72]], 1, 0, 0, 0, 0, true, 128, false⟩ : program_args).nSkipBytes [65, 0, 0, 0] 0
          (scan_init
            (charbuffer_alloc (⟨[[72]], 1, 0, 0, 0, 0, true, 128, false⟩ : program_args).bufSize)
            (charbuffer_alloc
              (⟨[[72]], 1, 0, 0, 0, 0, true, 128, false⟩ : program_args).bufSize))).unprintable
            = []) ∧
      (∀ u ∈ [1],
        is_printable ⟨[[72]], 1, 0, 0, 0, 0, true, 128, false⟩ (char_to_int u) = false) ∧
      [1].length ≤
        (⟨[[72]], 1, 0, 0, 0, 0, true, 128, false⟩ : program_args).nUnprintablesAllowed ∧
      is_printable ⟨[[72]], 1, 0, 0, 0, 0, true, 128, false⟩ (char_to_int 72) = true) ∧
    ∃ st, scan_file ⟨[[72]], 1, 0, 0, 0, 0, true, 128, false⟩
        ([] ++ ([65, 0, 0, 0] ++ ([1] ++ [72]))) = some st ∧
      content st.printable = [1] ++ [72] ∧ st.printableCount = 1 ∧
      st.closures.length = (scan_for ⟨[[72]], 1, 0, 0, 0, 0, true, 128, false⟩
        (⟨[[72]], 1, 0, 0, 0, 0, true, 128, false⟩ : program_args).nSkipBytes [65, 0, 0, 0] 0
        (scan_init
          (charbuffer_alloc (⟨[[72]], 1, 0, 0, 0, 0, true, 128, false⟩ : program_args).bufSize)
          (charbuffer_alloc
            (⟨[[72]], 1, 0, 0, 0, 0, true, 128, false⟩ : program_args).bufSize))).closures.length :=
  ⟨⟨by decide, by decide, by decide, by decide, by decide, by decide, by decide⟩,
    C16_leading_filler_kept ⟨[[72]], 1, 0, 0, 0, 0, true, 128, false⟩ [] [65, 0, 0, 0] [1] 72
      (by decide) (by decide) (by decide) (by decide) (by decide) (by decide) (by decide)⟩

/-- C17 (maximum result size), evaluated where it fails: with
`resultMaxSize = 128`, `nUnprintablesAllowed = 1` and the search term "A", the
input 'A', 0x00, 127 times 'A', then three 0x00 bytes closes one run at offset
131 with `printableCount = 128`; the run is a candidate, the buffer handed to
`chunk_accepted` has `charbuffer_length` 129, and 129 run bytes are written. -/
theorem C17_result_larger_than_maximum :
    (scan_file ⟨[[65]], 1, 128, 0, 0, 0, true, 128, false⟩
        ([65, 0] ++ List.replicate 127 65 ++ [0, 0, 0])).map
        (fun st => (st.closures.map
          (fun e => (e.byteOffset, e.printableCount, e.accepted, charbuffer_length e.printable)),
          st.outFile)) =
      some ([(131, 128, true, 129)],
        print_llu 131 ++ [10] ++ delimiter_line ++ ([65, 0] ++ List.replicate 127 65) ++
          [10, 10]) := by
  decide!

/-- C18 (emission decision): for every run buffer, offset, sink and list of
search terms, `chunk_accepted` returns true if and only if
`charbuffer_contains_string` finds at least one search term in the buffer;
when it returns true the sink has grown by the offset line, the delimiter line,
the content of the buffer and two newlines, and when it returns false the sink
is unchanged. -/
theorem C18_emission_decision (args : program_args) (buffer : Chain) (byteOffset : Nat)
    (outFile : List Nat) :
    ((chunk_accepted args buffer byteOffset outFile).1 = true ↔
      ∃ t ∈ args.searchTerms, (charbuffer_contains_string buffer t).1 = true) ∧
    ((chunk_accepted args buffer byteOffset outFile).1 = true ∧
        (chunk_accepted args buffer byteOffset outFile).2 =
          outFile ++ (print_llu byteOffset ++ [10] ++ delimiter_line ++ content buffer ++
            [10, 10]) ∨
      (chunk_accepted args buffer byteOffset outFile).1 = false ∧
        (chunk_accepted args buffer byteOffset outFile).2 = outFile) := by
  rw [← chunk_matches_iff, chunk_accepted_eq]
  by_cases h : chunk_matches buffer args.searchTerms = true
  · simp [h]
  · simp [h]

/-- C19 (output framing is byte-exact): whenever `chunk_accepted` emits a run
(returns true) for the byte offset `n`, the bytes it adds to the sink are
exactly the decimal digits of `n`, a newline, 36 characters '>' (code 62), a
newline, the content of the run buffer byte for byte, and two newlines. -/
theorem C19_output_framing (args : program_args) (buffer : Chain) (n : Nat)
    (outFile : List Nat) (h : (chunk_accepted args buffer n outFile).1 = true) :
    (chunk_accepted args buffer n outFile).2 =
      outFile ++ ((Nat.toDigits 10 n).map Char.toNat ++ [10] ++ List.replicate 36 62 ++ [10] ++
        content buffer ++ [10, 10]) := by
  rw [chunk_accepted_eq] at h ⊢
  by_cases hm : chunk_matches buffer args.searchTerms = true
  · simp only [hm, if_true, delimiter_line_eq, print_llu, List.append_assoc]
  · simp [hm] at h

/-- Witness of C19: the run "A\0\nB" held in two blocks, the search term "A" and
the offset 1234. -/
theorem C19_output_framing_witness :
    (chunk_accepted ⟨[[65]], 0, 0, 0, 0, 0, true, 128, false⟩
        [block_of [65, 0] 2, block_of [10, 66] 2] 1234 [7]).1 = true ∧
    (chunk_accepted ⟨[[65]], 0, 0, 0, 0, 0, true, 128, false⟩
        [block_of [65, 0] 2, block_of [10, 66] 2] 1234 [7]).2 =
      [7] ++ ((Nat.toDigits 10 1234).map Char.toNat ++ [10] ++ List.replicate 36 62 ++ [10] ++
        content [block_of [65, 0] 2, block_of [10, 66] 2] ++ [10, 10]) :=
  ⟨by decide,
    C19_output_framing ⟨[[65]], 0, 0, 0, 0, 0, true, 128, false⟩
      [block_of [65, 0] 2, block_of [10, 66] 2] 1234 [7] (by decide)⟩

/-- C20 (reported offset): for every input, skip count and buffer size,
`scan_file` ends in the state that one pass over the first `n` bytes of the
scanned stream (the input after the skipped bytes) reaches, whatever the split
into reads (`n` is the whole stream when `nUntil = 0`); and every closure it
went through carries as offset `nSkipBytes + j`, where `j` is the zero-based
position in the scanned stream of the byte on which the close branch was
taken: that byte is the byte of the input at the reported offset. -/
theorem C20_reported_offset (args : program_args) (fp : List Nat) (hb : 0 < args.bufSize) :
    ∃ st n, scan_file args fp = some st ∧ n ≤ (fp.drop args.nSkipBytes).length ∧
      (args.nUntil = 0 → n = (fp.drop args.nSkipBytes).length) ∧
      st = scan_for args args.nSkipBytes ((fp.drop args.nSkipBytes).take n) 0
        (scan_init (charbuffer_alloc args.bufSize) (charbuffer_alloc args.bufSize)) ∧
      ∀ e ∈ st.closures, ∃ j b, j < n ∧ e.byteOffset = args.nSkipBytes + j ∧
        fp[e.byteOffset]? = some b ∧
        scan_branch args
          (scan_for args args.nSkipBytes ((fp.drop args.nSkipBytes).take j) 0
            (scan_init (charbuffer_alloc args.bufSize) (charbuffer_alloc args.bufSize))) b =
          scan_branch_kind.close ∧
        e.printable =
          (scan_for args args.nSkipBytes ((fp.drop args.nSkipBytes).take j) 0
            (scan_init (charbuffer_alloc args.bufSize)
              (charbuffer_alloc args.bufSize))).printable := by
  obtain ⟨n, hn, hn0, he⟩ := scan_file_single_pass args fp hb
  refine ⟨_, n, he, hn, hn0, rfl, ?_⟩
  intro e hmem
  rcases scan_for_closures args args.nSkipBytes _ _ e hmem with h | ⟨j, b, hj, ho, hbr, hp⟩
  · simp [scan_init] at h
  · have hjn : j < n := by
      by_contra hcon
      rw [List.getElem?_take_eq_none (by omega)] at hj
      cases hj
    rw [List.getElem?_take_of_lt hjn, List.getElem?_drop] at hj
    have ht : ((fp.drop args.nSkipBytes).take n).take j = (fp.drop args.nSkipBytes).take j := by
      rw [List.take_take, Nat.min_eq_left (by omega)]
    rw [ht] at hbr hp
    exact ⟨j, b, hjn, ho, by rw [ho]; exact hj, hbr, hp⟩

/-- Witness of C20: three skipped bytes, reads of 128 bytes, and the stream
"AB\0\0\0" with `nUnprintablesAllowed = 1`, closing on the byte at offset 7. -/
theorem C20_reported_offset_witness :
    0 < (⟨[[65]], 1, 0, 0, 3, 0, true, 128, false⟩ : program_args).bufSize ∧
    ∃ st n, scan_file ⟨[[65]], 1, 0, 0, 3, 0, true, 128, false⟩
        [9, 9, 9, 65, 66, 0, 0, 0] = some st ∧
      n ≤ (([9, 9, 9, 65, 66, 0, 0, 0] : List Nat).drop
        (⟨[[65]], 1, 0, 0, 3, 0, true, 128, false⟩ : program_args).nSkipBytes).length ∧
      ((⟨[[65]], 1, 0, 0, 3, 0, true, 128, false⟩ : program_args).nUntil = 0 →
        n = (([9, 9, 9, 65, 66, 0, 0, 0] : List Nat).drop
          (⟨[[65]], 1, 0, 0, 3, 0, true, 128, false⟩ : program_args).nSkipBytes).length) ∧
      st = scan_for ⟨[[65]], 1, 0, 0, 3, 0, true, 128, false⟩
        (⟨[[65]], 1, 0, 0, 3, 0, true, 128, false⟩ : program_args).nSkipBytes
        ((([9, 9, 9, 65, 66, 0, 0, 0] : List Nat).drop
          (⟨[[65]], 1, 0, 0, 3, 0, true, 128, false⟩ : program_args).nSkipBytes).take n) 0
        (scan_init
          (charbuffer_alloc (⟨[[65]], 1, 0, 0, 3, 0, true, 128, false⟩ : program_args).bufSize)
          (charbuffer_alloc
            (⟨[[65]], 1, 0, 0, 3, 0, true, 128, false⟩ : program_args).bufSize)) ∧
      ∀ e ∈ st.closures, ∃ j b, j < n ∧
        e.byteOffset =
          (⟨[[65]], 1, 0, 0, 3, 0, true, 128, false⟩ : program_args).nSkipBytes + j ∧
        ([9, 9, 9, 65, 66, 0, 0, 0] : List Nat)[e.byteOffset]? = some b ∧
        scan_branch ⟨[[65]], 1, 0, 0, 3, 0, true, 128, false⟩
          (scan_for ⟨[[65]], 1, 0, 0, 3, 0, true, 128, false⟩
            (⟨[[65]], 1, 0, 0, 3, 0, true, 128, false⟩ : program_args).nSkipBytes
            ((([9, 9, 9, 65, 66, 0, 0, 0] : List Nat).drop
              (⟨[[65]], 1, 0, 0, 3, 0, true, 128, false⟩ : program_args).nSkipBytes).take j) 0
            (scan_init
              (charbuffer_alloc
                (⟨[[65]], 1, 0, 0, 3, 0, true, 128, false⟩ : program_args).bufSize)
              (charbuffer_alloc
                (⟨[[65]], 1, 0, 0, 3, 0, true, 128, false⟩ : program_args).bufSize))) b =
          scan_branch_kind.close ∧
        e.printable =
          (scan_for ⟨[[65]], 1, 0, 0, 3, 0, true, 128, false⟩
            (⟨[[65]], 1, 0, 0, 3, 0, true, 128, false⟩ : program_args).nSkipBytes
            ((([9, 9, 9, 65, 66, 0, 0, 0] : List Nat).drop
              (⟨[[65]], 1, 0, 0, 3, 0, true, 128, false⟩ : program_args).nSkipBytes).take j) 0
            (scan_init
              (charbuffer_alloc
                (⟨[[65]], 1, 0, 0, 3, 0, true, 128, false⟩ : program_args).bufSize)
              (charbuffer_alloc
                (⟨[[65]], 1, 0, 0, 3, 0, true, 128, false⟩ : program_args).bufSize))).printable :=
  ⟨by decide,
    C20_reported_offset ⟨[[65]], 1, 0, 0, 3, 0, true, 128, false⟩
      [9, 9, 9, 65, 66, 0, 0, 0] (by decide)⟩

/-! ## Lemmas on closures and the budget -/

theorem flush_length_zero (ch : Chain) : charbuffer_length (charbuffer_flush ch) = 0 := by
  induction ch with
  | nil => rfl
  | cons b next ih => simp [charbuffer_flush, charbuffer_length, ih]

theorem scan_byte_close (args : program_args) (o : Nat) (st : scan_state) (b : Nat)
    (h : scan_branch args st b = scan_branch_kind.close) :
    scan_byte args o st b =
      { printable := charbuffer_flush st.printable
        unprintable := charbuffer_flush st.unprintable
        printableOpt := head_ptr st.printable
        unprintableOpt := head_ptr st.unprintable
        printableCount := 0
        unprintableCount := 0
        maxChunkSize := 0
        currChunkSize := 0
        prevPrintable := is_printable args (char_to_int b)
        outFile :=
          if ((decide (args.resultMaxSize = 0) ||
                decide (st.printableCount ≤ args.resultMaxSize)) &&
              decide ((if st.currChunkSize > st.maxChunkSize then st.currChunkSize
                else st.maxChunkSize) ≥ args.minChunkSize)) = true then
            (chunk_accepted args st.printable o st.outFile).2
          else st.outFile
        closures := st.closures ++
          [{ byteOffset := o
             printable := st.printable
             printableCount := st.printableCount
             unprintableCount := st.unprintableCount
             currChunkSize := st.currChunkSize
             maxChunkSize :=
               if st.currChunkSize > st.maxChunkSize then st.currChunkSize
               else st.maxChunkSize
             accepted :=
               (decide (args.resultMaxSize = 0) ||
                  decide (st.printableCount ≤ args.resultMaxSize)) &&
                 decide ((if st.currChunkSize > st.maxChunkSize then st.currChunkSize
                   else st.maxChunkSize) ≥ args.minChunkSize) }] } := by
  simp only [scan_byte, h]

theorem scan_byte_stage (args : program_args) (o : Nat) (st : scan_state) (b : Nat)
    (h : scan_branch args st b = scan_branch_kind.stage) :
    scan_byte args o st b =
      { st with
        unprintable := (append_char_at st.unprintable st.unprintableOpt b).1
        unprintableOpt := (append_char_at st.unprintable st.unprintableOpt b).2
        unprintableCount := st.unprintableCount + 1
        prevPrintable := is_printable args (char_to_int b) } := by
  simp only [scan_byte, h]

theorem scan_byte_max_chunk (args : program_args) (o : Nat) (st : scan_state) (b : Nat)
    (h : st.maxChunkSize = 0 ∧ ∀ e ∈ st.closures, e.maxChunkSize = e.currChunkSize) :
    (scan_byte args o st b).maxChunkSize = 0 ∧
      ∀ e ∈ (scan_byte args o st b).closures, e.maxChunkSize = e.currChunkSize := by
  obtain ⟨h1, h2⟩ := h
  cases hb : scan_branch args st b with
  | append =>
    simp only [scan_byte, hb]
    exact ⟨h1, h2⟩
  | close =>
    rw [scan_byte_close args o st b hb]
    refine ⟨rfl, ?_⟩
    intro e he
    simp only [List.mem_append, List.mem_singleton] at he
    rcases he with he | he
    · exact h2 e he
    · subst he
      simp only [h1]
      split
      · rfl
      · omega
  | stage =>
    rw [scan_byte_stage args o st b hb]
    exact ⟨h1, h2⟩

theorem scan_for_max_chunk (args : program_args) (s : Nat) (input : List Nat) (i : Nat)
    (st : scan_state)
    (h : st.maxChunkSize = 0 ∧ ∀ e ∈ st.closures, e.maxChunkSize = e.currChunkSize) :
    (scan_for args s input i st).maxChunkSize = 0 ∧
      ∀ e ∈ (scan_for args s input i st).closures, e.maxChunkSize = e.currChunkSize := by
  induction input generalizing i st with
  | nil => exact h
  | cons b rest ih => exact ih (i + 1) _ (scan_byte_max_chunk args (s + i) st b h)

theorem scan_byte_budget (args : program_args) (o : Nat) (st : scan_state) (b : Nat)
    (hm : 0 < args.resultMaxSize)
    (h : st.printableCount ≤ args.resultMaxSize + 1 ∧
      ∀ e ∈ st.closures, e.printableCount ≤ args.resultMaxSize + 1) :
    (scan_byte args o st b).printableCount ≤ args.resultMaxSize + 1 ∧
      ∀ e ∈ (scan_byte args o st b).closures, e.printableCount ≤ args.resultMaxSize + 1 := by
  obtain ⟨h1, h2⟩ := h
  cases hb : scan_branch args st b with
  | append =>
    have hcond : is_printable args (char_to_int b) = true ∧
        (args.resultMaxSize = 0 ∨ st.printableCount ≤ args.resultMaxSize) := by
      by_contra hcon
      unfold scan_branch at hb
      rw [if_neg hcon] at hb
      split at hb <;> cases hb
    simp only [scan_byte, hb]
    refine ⟨?_, h2⟩
    rcases hcond.2 with h0 | hle
    · omega
    · omega
  | close =>
    rw [scan_byte_close args o st b hb]
    refine ⟨Nat.zero_le _, ?_⟩
    intro e he
    simp only [List.mem_append, List.mem_singleton] at he
    rcases he with he | he
    · exact h2 e he
    · subst he
      exact h1
  | stage =>
    rw [scan_byte_stage args o st b hb]
    exact ⟨h1, h2⟩

theorem scan_for_budget (args : program_args) (s : Nat) (input : List Nat) (i : Nat)
    (st : scan_state) (hm : 0 < args.resultMaxSize)
    (h : st.printableCount ≤ args.resultMaxSize + 1 ∧
      ∀ e ∈ st.closures, e.printableCount ≤ args.resultMaxSize + 1) :
    (scan_for args s input i st).printableCount ≤ args.resultMaxSize + 1 ∧
      ∀ e ∈ (scan_for args s input i st).closures,
        e.printableCount ≤ args.resultMaxSize + 1 := by
  induction input generalizing i st with
  | nil => exact h
  | cons b rest ih => exact ih (i + 1) _ (scan_byte_budget args (s + i) st b hm h)

theorem scan_branch_exhausted (args : program_args) (st : scan_state) (b : Nat)
    (hm : 0 < args.resultMaxSize) (hc : st.printableCount = args.resultMaxSize + 1) :
    scan_branch args st b =
      if st.unprintableCount > args.nUnprintablesAllowed then scan_branch_kind.close
      else scan_branch_kind.stage := by
  unfold scan_branch
  rw [if_neg]
  intro h
  rcases h.2 with h0 | hle
  · omega
  · omega

theorem run_byte_stage_eq (args : program_args) (o : Nat) (rs : run_state) (b : Nat)
    (h : run_branch args rs b = scan_branch_kind.stage) :
    run_byte args o rs b =
      { rs with
        unprintable := rs.unprintable ++ [b]
        unprintableCount := rs.unprintableCount + 1
        prevPrintable := is_printable args (char_to_int b) } := by
  simp only [run_byte, h]

theorem scan_for_exhausted (args : program_args) (s : Nat) (G : List Nat) (i : Nat)
    (st : scan_state) (hm : 0 < args.resultMaxSize) (hok : scan_ok st)
    (hc : st.printableCount = args.resultMaxSize + 1)
    (hG : st.unprintableCount + G.length ≤ args.nUnprintablesAllowed + 1) :
    scan_ok (scan_for args s G i st) ∧
      (scan_for args s G i st).printable = st.printable ∧
      (scan_for args s G i st).printableCount = args.resultMaxSize + 1 ∧
      (scan_for args s G i st).unprintableCount = st.unprintableCount + G.length ∧
      content (scan_for args s G i st).unprintable = content st.unprintable ++ G ∧
      (scan_for args s G i st).currChunkSize = st.currChunkSize ∧
      (scan_for args s G i st).maxChunkSize = st.maxChunkSize ∧
      (scan_for args s G i st).closures = st.closures ∧
      (scan_for args s G i st).outFile = st.outFile := by
  induction G generalizing i st with
  | nil => exact ⟨hok, rfl, hc, rfl, by simp [scan_for], rfl, rfl, rfl, rfl⟩
  | cons g gs ih =>
    simp only [List.length_cons] at hG
    have hbr : scan_branch args st g = scan_branch_kind.stage := by
      rw [scan_branch_exhausted args st g hm hc, if_neg (by omega)]
    have hstep := scan_byte_stage args (s + i) st g hbr
    obtain ⟨hok1, hrun1⟩ := scan_byte_run args (s + i) st g hok
    have hcont : content (scan_byte args (s + i) st g).unprintable =
        content st.unprintable ++ [g] := by
      have hb2 : run_branch args (run_of st) g = scan_branch_kind.stage := by
        rw [← scan_branch_run]
        exact hbr
      rw [run_byte_stage_eq args (s + i) (run_of st) g hb2] at hrun1
      exact congrArg run_state.unprintable hrun1
    obtain ⟨a1, a2, a3, a4, a5, a6, a7, a8, a9⟩ := ih (i + 1) (scan_byte args (s + i) st g) hok1
      (by rw [hstep]; exact hc) (by rw [hstep]; show st.unprintableCount + 1 + gs.length ≤ _; omega)
    simp only [scan_for]
    refine ⟨a1, ?_, a3, ?_, ?_, ?_, ?_, ?_, ?_⟩
    · rw [a2, hstep]
    · rw [a4, hstep]
      simp only [List.length_cons]
      omega
    · rw [a5, hcont]
      simp
    · rw [a6, hstep]
    · rw [a7, hstep]
    · rw [a8, hstep]
    · rw [a9, hstep]

theorem scan_byte_accepted (args : program_args) (o : Nat) (st : scan_state) (b : Nat)
    (h : ∀ e ∈ st.closures, e.accepted =
      ((decide (args.resultMaxSize = 0) || decide (e.printableCount ≤ args.resultMaxSize)) &&
        decide (e.maxChunkSize ≥ args.minChunkSize))) :
    ∀ e ∈ (scan_byte args o st b).closures, e.accepted =
      ((decide (args.resultMaxSize = 0) || decide (e.printableCount ≤ args.resultMaxSize)) &&
        decide (e.maxChunkSize ≥ args.minChunkSize)) := by
  cases hb : scan_branch args st b with
  | append =>
    simp only [scan_byte, hb]
    exact h
  | close =>
    rw [scan_byte_close args o st b hb]
    intro e he
    simp only [List.mem_append, List.mem_singleton] at he
    rcases he with he | he
    · exact h e he
    · subst he
      rfl
  | stage =>
    rw [scan_byte_stage args o st b hb]
    exact h

theorem scan_for_accepted (args : program_args) (s : Nat) (input : List Nat) (i : Nat)
    (st : scan_state)
    (h : ∀ e ∈ st.closures, e.accepted =
      ((decide (args.resultMaxSize = 0) || decide (e.printableCount ≤ args.resultMaxSize)) &&
        decide (e.maxChunkSize ≥ args.minChunkSize))) :
    ∀ e ∈ (scan_for args s input i st).closures, e.accepted =
      ((decide (args.resultMaxSize = 0) || decide (e.printableCount ≤ args.resultMaxSize)) &&
        decide (e.maxChunkSize ≥ args.minChunkSize)) := by
  induction input generalizing i st with
  | nil => exact h
  | cons b rest ih => exact ih (i + 1) _ (scan_byte_accepted args (s + i) st b h)

theorem last_stretch_snoc (args : program_args) (l : List Nat) (b : Nat) :
    last_stretch args (l ++ [b]) =
      if is_printable args (char_to_int b) = true then last_stretch args l + 1 else 0 := by
  unfold last_stretch
  rw [List.reverse_append, List.reverse_singleton, List.singleton_append, List.takeWhile_cons]
  split <;> simp

theorem last_stretch_nil (args : program_args) : last_stretch args [] = 0 := rfl

theorem run_branch_append_iff (args : program_args) (rs : run_state) (b : Nat)
    (h : run_branch args rs b = scan_branch_kind.append) :
    is_printable args (char_to_int b) = true ∧
      (args.resultMaxSize = 0 ∨ rs.printableCount ≤ args.resultMaxSize) := by
  by_contra hcon
  unfold run_branch at h
  rw [if_neg hcon] at h
  split at h <;> cases h

theorem run_branch_not_append (args : program_args) (rs : run_state) (b : Nat)
    (h : run_branch args rs b ≠ scan_branch_kind.append) :
    ¬ (is_printable args (char_to_int b) = true ∧
      (args.resultMaxSize = 0 ∨ rs.printableCount ≤ args.resultMaxSize)) := by
  intro hcon
  apply h
  unfold run_branch
  rw [if_pos hcon]

theorem run_byte_stretch (args : program_args) (o : Nat) (rs : run_state) (b : Nat)
    (h : stretch_inv args rs) : stretch_inv args (run_byte args o rs b) := by
  obtain ⟨h1, h2, h3, h4⟩ := h
  cases hb : run_branch args rs b with
  | append =>
    obtain ⟨hp, hbud⟩ := run_branch_append_iff args rs b hb
    have hstep := run_byte_append args o rs b hp hbud
    rw [hstep]
    refine ⟨?_, ?_, ?_, h4⟩
    · show (if rs.prevPrintable = false then 0 else rs.currChunkSize) + 1 =
        last_stretch args (rs.printable ++ rs.unprintable ++ [b])
      rw [last_stretch_snoc, if_pos hp]
      cases hprev : rs.prevPrintable with
      | false =>
        simp only [if_true]
        rcases h2 hprev with ⟨pre, u, hu, hun⟩ | ⟨hpe, hue⟩
        · rw [hu, ← List.append_assoc, last_stretch_snoc, if_neg (by simp [hun])]
        · rw [hpe, hue]
          rfl
      | true =>
        have hu := h3 hprev hbud
        rw [hu, List.append_nil, ← h1]
        simp
    · intro hf
      cases hf
    · intro _ _
      rfl
  | close =>
    simp only [run_byte, hb]
    refine ⟨rfl, fun _ => Or.inr ⟨rfl, rfl⟩, fun _ _ => rfl, ?_⟩
    intro e he
    simp only [List.mem_append, List.mem_singleton] at he
    rcases he with he | he
    · exact h4 e he
    · subst he
      exact h1
  | stage =>
    have hna := run_branch_not_append args rs b (by rw [hb]; intro hc; cases hc)
    rw [run_byte_stage_eq args o rs b hb]
    refine ⟨h1, ?_, ?_, h4⟩
    · intro hprev
      exact Or.inl ⟨rs.unprintable, b, rfl, hprev⟩
    · intro hprev hbud
      exact absurd ⟨hprev, hbud⟩ hna

theorem run_for_stretch (args : program_args) (s : Nat) (input : List Nat) (i : Nat)
    (rs : run_state) (h : stretch_inv args rs) :
    stretch_inv args (run_for args s input i rs) := by
  induction input generalizing i rs with
  | nil => exact h
  | cons b rest ih => exact ih (i + 1) _ (run_byte_stretch args (s + i) rs b h)

theorem run_init_stretch (args : program_args) : stretch_inv args run_init :=
  ⟨rfl, fun _ => Or.inr ⟨rfl, rfl⟩, fun _ _ => rfl, fun e he => by simp [run_init] at he⟩

theorem scan_for_stretch (args : program_args) (hb : 0 < args.bufSize) (s : Nat)
    (input : List Nat) :
    ∀ e ∈ (scan_for args s input 0
        (scan_init (charbuffer_alloc args.bufSize) (charbuffer_alloc args.bufSize))).closures,
      e.currChunkSize = last_stretch args (content e.printable) := by
  intro e he
  have hrun := (scan_for_run args s input 0 _ (scan_init_ok args.bufSize hb)).2
  rw [scan_init_run] at hrun
  have hinv := (run_for_stretch args s input 0 run_init (run_init_stretch args)).2.2.2
  rw [← hrun] at hinv
  exact hinv (run_closure_of e) (List.mem_map_of_mem _ he)

/-! ## Lemmas on the search -/

theorem contains_for_done (cbuf : List Nat) (size : Nat) (ms : List Nat) (i m off : Nat)
    (h : size ≤ m) : contains_for cbuf size ms i m off = (m, off) := by
  cases ms with
  | nil => rfl
  | cons x xs =>
    have : ¬ m < size := by omega
    simp [contains_for, this]

theorem contains_for_fst (cbuf : List Nat) (size : Nat) (ms : List Nat) (i j m off1 off2 : Nat) :
    (contains_for cbuf size ms i m off1).1 = (contains_for cbuf size ms j m off2).1 := by
  induction ms generalizing i j m off1 off2 with
  | nil => rfl
  | cons x xs ih =>
    unfold contains_for
    split
    · split
      · exact ih _ _ _ _ _
      · exact ih _ _ _ _ _
    · rfl

theorem contains_for_append (cbuf : List Nat) (size : Nat) (a b : List Nat) (i j m off1 off2 : Nat) :
    (contains_for cbuf size (a ++ b) i m off1).1 =
      (contains_for cbuf size b j (contains_for cbuf size a i m off1).1 off2).1 := by
  induction a generalizing i m off1 with
  | nil => exact contains_for_fst cbuf size b i j m off1 off2
  | cons x xs ih =>
    by_cases hm : m < size
    · by_cases hx : cbuf[m]? = some x
      · simp only [List.cons_append, contains_for, hm, hx, if_true]
        exact ih _ _ _
      · simp only [List.cons_append, contains_for, hm, hx, if_true, if_false]
        exact ih _ _ _
    · rw [contains_for_done cbuf size _ i m off1 (by omega),
        contains_for_done cbuf size _ i m off1 (by omega),
        contains_for_done cbuf size _ j m off2 (by omega)]

theorem contains_while_fst (cbuf : List Nat) (size : Nat) (ch : Chain) (k m off : Nat) :
    (contains_while cbuf size ch k m off).1 =
      decide ((contains_for cbuf size (content ch) 0 m 0).1 = size) := by
  induction ch generalizing k m off with
  | nil => simp [contains_while, content, contains_for]
  | cons b next ih =>
    have happ := contains_for_append cbuf size (b.mem.take b.filled) (content next) 0 0 m 0 0
    have hfst := contains_for_fst cbuf size (b.mem.take b.filled) 0 0 m 0 off
    simp only [content, happ, hfst]
    by_cases hm : m < size
    · by_cases hr : (contains_for cbuf size (b.mem.take b.filled) 0 m off).1 = size
      · simp only [contains_while, hm, hr, if_true]
        rw [contains_for_done cbuf size _ 0 size 0 (Nat.le_refl _)]
        simp
      · simp only [contains_while, hm, hr, if_true, if_false]
        exact ih _ _ _
    · simp only [contains_while, hm, if_false]
      rw [contains_for_done cbuf size (b.mem.take b.filled) 0 m off (by omega),
        contains_for_done cbuf size _ 0 m 0 (by omega)]

theorem contains_buffer_hit (b : charbuffer) (next : Chain) (cbuf : List Nat) :
    (charbuffer_contains_buffer (b :: next) cbuf).1 = search_hit cbuf (content (b :: next)) := by
  simp only [charbuffer_contains_buffer, contains_while_fst, search_hit]

theorem contains_string_hit (b : charbuffer) (next : Chain) (string : List Nat) :
    (charbuffer_contains_string (b :: next) string).1 =
      string_hit string (content (b :: next)) := by
  by_cases h : strlen string = 0
  · simp only [charbuffer_contains_string, string_hit, h, if_true]
  · simp only [charbuffer_contains_string, string_hit, h, if_false]
    exact contains_buffer_hit b next _

theorem chunk_matches_hit (b : charbuffer) (next : Chain) (terms : List (List Nat)) :
    chunk_matches (b :: next) terms =
      terms.any fun t => string_hit t (content (b :: next)) := by
  induction terms with
  | nil => rfl
  | cons t ts ih =>
    simp only [chunk_matches, List.any_cons, contains_string_hit, ih]
    cases string_hit t (content (b :: next)) <;> simp

theorem contains_for_sound (cbuf : List Nat) (text : List Nat) (i m off : Nat) (done : List Nat)
    (hm : m ≤ cbuf.length) (hdone : ∃ pre, done = pre ++ cbuf.take m)
    (h : (contains_for cbuf cbuf.length text i m off).1 = cbuf.length) :
    ∃ s t, s ++ cbuf ++ t = done ++ text := by
  induction text generalizing i m off done with
  | nil =>
    simp only [contains_for] at h
    obtain ⟨pre, rfl⟩ := hdone
    refine ⟨pre, [], ?_⟩
    rw [h, List.take_length]
  | cons x xs ih =>
    by_cases hlt : m < cbuf.length
    · by_cases hx : cbuf[m]? = some x
      · simp only [contains_for, hlt, hx, if_true] at h
        obtain ⟨pre, rfl⟩ := hdone
        obtain ⟨s, t, hst⟩ := ih (i + 1) (m + 1) _ (pre ++ cbuf.take m ++ [x]) (by omega)
          ⟨pre, by rw [List.take_succ, hx]; simp⟩ h
        exact ⟨s, t, by rw [hst]; simp⟩
      · simp only [contains_for, hlt, hx, if_true, if_false] at h
        obtain ⟨s, t, hst⟩ := ih (i + 1) 0 off (done ++ [x]) (Nat.zero_le _)
          ⟨done ++ [x], by simp⟩ h
        exact ⟨s, t, by rw [hst]; simp⟩
    · have hme : m = cbuf.length := by omega
      obtain ⟨pre, rfl⟩ := hdone
      refine ⟨pre, x :: xs, ?_⟩
      rw [hme, List.take_length]

theorem run_output_append (args : program_args) (l : List run_closure) (e : run_closure) :
    run_output args (l ++ [e]) = run_output args l ++ run_emit args e := by
  induction l with
  | nil => simp [run_output]
  | cons x xs ih => simp [run_output, ih]

theorem chunk_accepted_emit (args : program_args) (ch : Chain) (hne : ch ≠ []) (o : Nat)
    (outFile : List Nat) (pc uc cc mc : Nat) (acc : Bool) :
    (if acc = true then (chunk_accepted args ch o outFile).2 else outFile) =
      outFile ++ run_emit args (run_closure_of
        { byteOffset := o
          printable := ch
          printableCount := pc
          unprintableCount := uc
          currChunkSize := cc
          maxChunkSize := mc
          accepted := acc }) := by
  cases ch with
  | nil => exact absurd rfl hne
  | cons b next =>
    rw [chunk_accepted_eq, chunk_matches_hit]
    simp only [run_emit, run_closure_of]
    cases acc
    · simp
    · by_cases hany : (args.searchTerms.any fun t => string_hit t (content (b :: next))) = true
      · simp [hany]
      · simp [hany]

theorem scan_byte_output (args : program_args) (o : Nat) (st : scan_state) (b : Nat)
    (hne : st.printable ≠ [])
    (h : st.outFile = run_output args (st.closures.map run_closure_of)) :
    (scan_byte args o st b).outFile =
      run_output args ((scan_byte args o st b).closures.map run_closure_of) := by
  cases hb : scan_branch args st b with
  | append =>
    simp only [scan_byte, hb]
    exact h
  | close =>
    rw [scan_byte_close args o st b hb]
    simp only [List.map_append, List.map_cons, List.map_nil, run_output_append, ← h]
    exact chunk_accepted_emit args st.printable hne o st.outFile _ _ _ _ _
  | stage =>
    rw [scan_byte_stage args o st b hb]
    exact h

theorem scan_for_output (args : program_args) (s : Nat) (input : List Nat) (i : Nat)
    (st : scan_state) (hok : scan_ok st)
    (h : st.outFile = run_output args (st.closures.map run_closure_of)) :
    (scan_for args s input i st).outFile =
      run_output args ((scan_for args s input i st).closures.map run_closure_of) := by
  induction input generalizing i st with
  | nil => exact h
  | cons b rest ih =>
    exact ih (i + 1) _ (scan_byte_run args (s + i) st b hok).1
      (scan_byte_output args (s + i) st b hok.1.1 h)

theorem scan_file_output (args : program_args) (fp : List Nat) (hb : 0 < args.bufSize)
    (hu : args.nUntil = 0) :
    (scan_file args fp).map (fun st => st.outFile) =
      some (run_output args
        (run_for args args.nSkipBytes (fp.drop args.nSkipBytes) 0 run_init).closures) := by
  obtain ⟨n, _, hn0, he⟩ := scan_file_single_pass args fp hb
  rw [hn0 hu, List.take_length] at he
  have hok := scan_init_ok args.bufSize hb
  have hout := scan_for_output args args.nSkipBytes (fp.drop args.nSkipBytes) 0 _ hok rfl
  have hrun := (scan_for_run args args.nSkipBytes (fp.drop args.nSkipBytes) 0 _ hok).2
  rw [scan_init_run] at hrun
  rw [he, Option.map_some', hout, ← hrun]
  rfl

theorem run_byte_bufSize (args : program_args) (B : Nat) (o : Nat) (rs : run_state) (b : Nat) :
    run_byte { args with bufSize := B } o rs b = run_byte args o rs b := rfl

theorem run_for_bufSize (args : program_args) (B : Nat) (s : Nat) (input : List Nat) (i : Nat)
    (rs : run_state) :
    run_for { args with bufSize := B } s input i rs = run_for args s input i rs := by
  induction input generalizing i rs with
  | nil => rfl
  | cons b rest ih => simp only [run_for, run_byte_bufSize, ih]

theorem run_output_bufSize (args : program_args) (B : Nat) (l : List run_closure) :
    run_output { args with bufSize := B } l = run_output args l := by
  induction l with
  | nil => rfl
  | cons e rest ih =>
    simp only [run_output, ih]
    rfl

/-! ## Lemmas on sequences of buffer operations -/

theorem append_charbuffer_ok_any (dest src : Chain) (offset : Nat) (h : chain_ok dest) :
    ∃ ch1 k, (charbuffer_append_charbuffer dest src offset).buffer = ch1 ∧
      (charbuffer_append_charbuffer dest src offset).ret = some k ∧ chain_ok ch1 ∧
      k < ch1.length ∧ AllFull (ch1.take k) := by
  induction src generalizing dest offset with
  | nil =>
    cases dest with
    | nil => exact absurd rfl h.1
    | cons n next =>
      refine ⟨n :: next, 0, rfl, rfl, h, by simp, ?_⟩
      intro y hy
      simp at hy
  | cons s snext ih =>
    cases dest with
    | nil => exact absurd rfl h.1
    | cons n next =>
      by_cases ho : offset ≤ s.filled
      · obtain ⟨ch1, k, he, hok1, _, hk1, hf1⟩ :=
          charbuffer_append_buffer_ok (n :: next) ((s.mem.drop offset).take (s.filled - offset)) h
        obtain ⟨sub, j, hes, her, hoks, hjs, hfs⟩ := ih (ch1.drop k) offset
          (chain_ok_drop ch1 k hok1 hk1)
        obtain ⟨hok2, hp2⟩ := from_node_ok ch1 sub k j hok1 hk1 hf1 hoks hjs hfs
        obtain ⟨k2, hk2, hlt, hfull⟩ := hp2
        refine ⟨ch1.take k ++ sub, k2, ?_, ?_, hok2, hlt, hfull⟩
        · simp only [charbuffer_append_charbuffer, ho, if_true, he, hes]
        · simp only [charbuffer_append_charbuffer, ho, if_true, he, her, Option.map_some', hk2]
      · obtain ⟨ch1, k, he, her, hok1, hk1, hf1⟩ := ih (n :: next) (offset - s.filled) h
        refine ⟨ch1, k, ?_, ?_, hok1, hk1, hf1⟩
        · simp only [charbuffer_append_charbuffer, ho, if_false, he]
        · simp only [charbuffer_append_charbuffer, ho, if_false, her]

theorem shape_take (k : Nat) (ch : Chain) (h : Shape ch) : Shape (ch.take k) := by
  induction ch generalizing k with
  | nil => simpa using h
  | cons b next ih =>
    cases k with
    | zero => simp [Shape]
    | succ k =>
      simp only [List.take_succ_cons]
      unfold Shape at h ⊢
      split
      · rename_i hfull
        rw [if_pos hfull] at h
        exact ih k h
      · rename_i hfull
        rw [if_neg hfull] at h
        exact fun y hy => h y (List.mem_of_mem_take hy)

theorem chain_ok_take (ch : Chain) (k : Nat) (h : chain_ok ch) (hk : 0 < k) :
    chain_ok (ch.take k) := by
  obtain ⟨hne, hok, hshape⟩ := h
  refine ⟨?_, fun y hy => hok y (List.mem_of_mem_take hy), shape_take k ch hshape⟩
  cases ch with
  | nil => exact absurd rfl hne
  | cons b next =>
    cases k with
    | zero => omega
    | succ k => simp

theorem truncate_walk_take (n : Nat) (ch : Chain) (has_bytes : Nat) (hne : ch ≠ []) :
    ∃ k, 0 < k ∧ (truncate_walk n ch has_bytes).2 = ch.take k := by
  induction ch generalizing has_bytes with
  | nil => exact absurd rfl hne
  | cons b next ih =>
    unfold truncate_walk
    split
    · exact ⟨1, by omega, by simp [truncate_zero]⟩
    · cases next with
      | nil => exact ⟨1, by omega, by simp [truncate_walk]⟩
      | cons c rest =>
        obtain ⟨k, hk, he⟩ := ih (has_bytes + b.size) (by simp)
        exact ⟨k + 1, by omega, by simp [he]⟩

theorem truncate_take (ch : Chain) (n : Nat) (hne : ch ≠ []) :
    ∃ k, 0 < k ∧ (charbuffer_truncate ch n).2 = ch.take k := by
  cases ch with
  | nil => exact absurd rfl hne
  | cons b next =>
    by_cases hn : n = 0
    · exact ⟨1, by omega, by simp [charbuffer_truncate, hn, truncate_zero]⟩
    · simp only [charbuffer_truncate, hn, if_false]
      exact truncate_walk_take n (b :: next) 0 (by simp)

theorem write_node_all (P : charbuffer → Prop) (f : charbuffer → charbuffer) (k : Nat)
    (ch : Chain) (h : ∀ x ∈ ch, P x) (hf : ∀ x, P x → P (f x)) :
    ∀ x ∈ write_node f k ch, P x := by
  induction ch generalizing k with
  | nil => intro x hx; simp [write_node] at hx
  | cons b next ih =>
    have hb := h b (List.mem_cons_self _ _)
    have hnext : ∀ x ∈ next, P x := fun y hy => h y (List.mem_cons_of_mem _ hy)
    cases k with
    | zero =>
      intro x hx
      simp only [write_node, List.mem_cons] at hx
      rcases hx with rfl | hx
      · exact hf b hb
      · exact hnext x hx
    | succ k =>
      intro x hx
      simp only [write_node, List.mem_cons] at hx
      rcases hx with rfl | hx
      · exact hb
      · exact ih k hnext x hx

theorem prepare_loop_sizes (c : Nat) (ch : Chain) (h : ∀ x ∈ ch, x.size = c) :
    ∀ x ∈ (prepare_append_loop c ch).1, x.size = c := by
  induction ch with
  | nil => intro x hx; simp [prepare_append_loop] at hx
  | cons b next ih =>
    have hb := h b (List.mem_cons_self _ _)
    have hnext : ∀ x ∈ next, x.size = c := fun y hy => h y (List.mem_cons_of_mem _ hy)
    by_cases hfull : b.filled ≥ b.size
    · cases next with
      | nil =>
        by_cases hc : c ≤ 0
        · simp only [prepare_append_loop, hfull, if_true, charbuffer_alloc, hc]
          exact h
        · simp only [prepare_append_loop, hfull, if_true, charbuffer_alloc, hc, if_false]
          intro x hx
          simp only [List.mem_cons, List.mem_singleton, List.mem_nil_iff, or_false] at hx
          rcases hx with rfl | rfl
          · exact hb
          · rfl
      | cons n rest =>
        rw [prepare_loop_cons_cons, if_pos hfull]
        intro x hx
        simp only [List.mem_cons] at hx
        rcases hx with rfl | hx
        · exact hb
        · exact ih hnext x (by simpa using hx)
    · have : prepare_append_loop c (b :: next) = (b :: next, some 0) := by
        cases next <;> simp [prepare_append_loop, hfull]
      rw [this]
      exact h

theorem append_char_sizes (c : Nat) (ch : Chain) (x : Nat) (h : ∀ b ∈ ch, b.size = c) :
    ∀ b ∈ (charbuffer_append_char ch x).1, b.size = c := by
  cases ch with
  | nil => intro b hb; simp [charbuffer_append_char, charbuffer_prepare_append] at hb
  | cons n next =>
    have hn : n.size = c := h n (List.mem_cons_self _ _)
    have hp := prepare_loop_sizes c (n :: next) h
    unfold charbuffer_append_char charbuffer_prepare_append
    simp only [hn]
    cases hr : prepare_append_loop c (n :: next) with
    | mk ch1 r =>
      rw [hr] at hp
      cases r with
      | none => exact hp
      | some k => exact write_node_all (fun b => b.size = c) _ k ch1 hp (fun b hb => hb)

theorem append_buffer_sizes (c : Nat) (ch : Chain) (bs : List Nat) (h : ∀ b ∈ ch, b.size = c) :
    ∀ b ∈ (charbuffer_append_buffer ch bs).1, b.size = c := by
  induction bs generalizing ch with
  | nil =>
    cases ch with
    | nil => intro b hb; simp [charbuffer_append_buffer] at hb
    | cons n next => exact h
  | cons x xs ih =>
    cases ch with
    | nil => intro b hb; simp [charbuffer_append_buffer] at hb
    | cons n next =>
      have h1 := append_char_sizes c (n :: next) x h
      unfold charbuffer_append_buffer
      cases hr : charbuffer_append_char (n :: next) x with
      | mk ch1 r =>
        rw [hr] at h1
        cases r with
        | none => exact h1
        | some k =>
          intro b hb
          simp only [from_node, List.mem_append] at hb
          rcases hb with hb | hb
          · exact h1 b (List.mem_of_mem_take hb)
          · exact ih (ch1.drop k) (fun y hy => h1 y (List.mem_of_mem_drop hy)) b hb

theorem append_charbuffer_sizes (c : Nat) (dest src : Chain) (offset : Nat)
    (h : ∀ b ∈ dest, b.size = c) :
    ∀ b ∈ (charbuffer_append_charbuffer dest src offset).buffer, b.size = c := by
  induction src generalizing dest offset with
  | nil =>
    cases dest with
    | nil => intro b hb; simp [charbuffer_append_charbuffer] at hb
    | cons n next => exact h
  | cons s snext ih =>
    cases dest with
    | nil => intro b hb; simp [charbuffer_append_charbuffer] at hb
    | cons n next =>
      by_cases ho : offset ≤ s.filled
      · have h1 := append_buffer_sizes c (n :: next)
          ((s.mem.drop offset).take (s.filled - offset)) h
        unfold charbuffer_append_charbuffer
        rw [if_pos ho]
        cases hr : charbuffer_append_buffer (n :: next)
            ((s.mem.drop offset).take (s.filled - offset)) with
        | mk ch1 r =>
          rw [hr] at h1
          cases r with
          | none => exact h1
          | some k =>
            intro b hb
            simp only [List.mem_append] at hb
            rcases hb with hb | hb
            · exact h1 b (List.mem_of_mem_take hb)
            · exact ih (ch1.drop k) offset (fun y hy => h1 y (List.mem_of_mem_drop hy)) b hb
      · unfold charbuffer_append_charbuffer
        rw [if_neg ho]
        exact ih (n :: next) (offset - s.filled) h

theorem flush_sizes_all (c : Nat) (ch : Chain) (h : ∀ b ∈ ch, b.size = c) :
    ∀ b ∈ charbuffer_flush ch, b.size = c := by
  induction ch with
  | nil => intro b hb; simp [charbuffer_flush] at hb
  | cons x xs ih =>
    intro b hb
    simp only [charbuffer_flush, List.mem_cons] at hb
    rcases hb with rfl | hb
    · exact h x (List.mem_cons_self _ _)
    · exact ih (fun y hy => h y (List.mem_cons_of_mem _ hy)) b hb

theorem apply_op_ok (c : Nat) (ch : Chain) (op : buffer_op)
    (h : chain_ok ch ∧ ∀ b ∈ ch, b.size = c) :
    chain_ok (apply_op ch op) ∧ ∀ b ∈ apply_op ch op, b.size = c := by
  obtain ⟨hok, hsz⟩ := h
  cases op with
  | append_char x =>
    obtain ⟨ch1, k, he, hok1, _⟩ := charbuffer_append_char_ok ch x hok
    refine ⟨?_, append_char_sizes c ch x hsz⟩
    simp only [apply_op, he]
    exact hok1
  | append_buffer bs =>
    obtain ⟨ch1, k, he, hok1, _⟩ := charbuffer_append_buffer_ok ch bs hok
    refine ⟨?_, append_buffer_sizes c ch bs hsz⟩
    simp only [apply_op, he]
    exact hok1
  | append_charbuffer src offset =>
    obtain ⟨ch1, k, he, _, hok1, _⟩ := append_charbuffer_ok_any ch src offset hok
    refine ⟨?_, append_charbuffer_sizes c ch src offset hsz⟩
    simp only [apply_op, he]
    exact hok1
  | flush => exact ⟨flush_ok ch hok, flush_sizes_all c ch hsz⟩
  | truncate n =>
    obtain ⟨k, hk, he⟩ := truncate_take ch n hok.1
    simp only [apply_op, he]
    exact ⟨chain_ok_take ch k hok hk, fun b hb => hsz b (List.mem_of_mem_take hb)⟩

theorem apply_ops_ok (c : Nat) (ch : Chain) (ops : List buffer_op)
    (h : chain_ok ch ∧ ∀ b ∈ ch, b.size = c) :
    chain_ok (apply_ops ch ops) ∧ ∀ b ∈ apply_ops ch ops, b.size = c := by
  induction ops generalizing ch with
  | nil => exact h
  | cons op rest ih => exact ih (apply_op ch op) (apply_op_ok c ch op h)

theorem alloc_sizes (c : Nat) : ∀ b ∈ charbuffer_alloc c, b.size = c := by
  intro b hb
  unfold charbuffer_alloc at hb
  split at hb
  · simp at hb
  · simp only [List.mem_singleton] at hb
    subst hb
    rfl

theorem shape_parts (ch : Chain) (hne : ch ≠ []) (h : Shape ch) :
    ∃ pre b post, ch = pre ++ b :: post ∧ AllFull pre ∧ AllEmpty post := by
  rcases shape_split ch h with hfull | ⟨pre, b, post, he, hpre, _, hpost⟩
  · refine ⟨ch.dropLast, ch.getLast hne, [], (List.dropLast_append_getLast hne).symm, ?_, ?_⟩
    · exact fun y hy => hfull y (List.mem_of_mem_dropLast hy)
    · intro y hy
      simp at hy
  · exact ⟨pre, b, post, he, hpre, hpost⟩

/-! ## The claims on closures, the budget, the options and the invariants -/

/-- C21 (option `-b` affects only the buffer size), evaluated where it fails:
from the initial settings, the option `-b 256` sets `bufSize` to 256 and also
`resultMaxSize` and `minChunkSize` to 256, and the option `-m 200` sets
`resultMaxSize` and also `minChunkSize` to 200: the cases 'b' and 'm' of the
`switch` have no `break`. -/
theorem C21_option_b_falls_through :
    (main_option main_init 'b' [50, 53, 54]).map
        (fun s => (s.args.bufSize, s.args.resultMaxSize, s.args.minChunkSize)) =
      some (256, 256, 256) ∧
    (main_option main_init 'm' [50, 48, 48]).map
        (fun s => (s.args.bufSize, s.args.resultMaxSize, s.args.minChunkSize)) =
      some (1024, 200, 200) ∧
    (main_init.args.bufSize, main_init.args.resultMaxSize, main_init.args.minChunkSize) =
      (1024, 0, 0) := by
  decide

/-- C22 (run closure resets the classifier): whenever a byte takes the close
branch, whatever the acceptance test gives, the state after it has both
buffers of `charbuffer_length` 0 and of empty content (so the closing byte is
stored in neither), and `printableCount`, `unprintableCount`, `maxChunkSize`
and `currChunkSize` are all 0. -/
theorem C22_closure_resets (args : program_args) (byteOffset : Nat) (st : scan_state)
    (b : Nat) (h : scan_branch args st b = scan_branch_kind.close) :
    charbuffer_length (scan_byte args byteOffset st b).printable = 0 ∧
      charbuffer_length (scan_byte args byteOffset st b).unprintable = 0 ∧
      content (scan_byte args byteOffset st b).printable = [] ∧
      content (scan_byte args byteOffset st b).unprintable = [] ∧
      (scan_byte args byteOffset st b).printableCount = 0 ∧
      (scan_byte args byteOffset st b).unprintableCount = 0 ∧
      (scan_byte args byteOffset st b).maxChunkSize = 0 ∧
      (scan_byte args byteOffset st b).currChunkSize = 0 := by
  rw [scan_byte_close args byteOffset st b h]
  exact ⟨flush_length_zero _, flush_length_zero _, flush_content _, flush_content _,
    rfl, rfl, rfl, rfl⟩

/-- Witness of C22: `nUnprintablesAllowed = 1` and the input "AB\0\0\0C". The
third zero byte, at offset 4, takes the close branch in the state that
"AB\0\0" leaves; the run closes there with the printable buffer "AB" and
`maxChunkSize` 2, and after the byte 'C' the printable buffer holds "C"
only. -/
theorem C22_closure_resets_witness :
    scan_branch ⟨[[65]], 1, 0, 0, 0, 0, true, 128, false⟩
        (scan_for ⟨[[65]], 1, 0, 0, 0, 0, true, 128, false⟩ 0 [65, 66, 0, 0] 0
          (scan_init (charbuffer_alloc 128) (charbuffer_alloc 128))) 0 =
      scan_branch_kind.close ∧
    (charbuffer_length (scan_byte ⟨[[65]], 1, 0, 0, 0, 0, true, 128, false⟩ 4
        (scan_for ⟨[[65]], 1, 0, 0, 0, 0, true, 128, false⟩ 0 [65, 66, 0, 0] 0
          (scan_init (charbuffer_alloc 128) (charbuffer_alloc 128))) 0).printable = 0 ∧
      charbuffer_length (scan_byte ⟨[[65]], 1, 0, 0, 0, 0, true, 128, false⟩ 4
        (scan_for ⟨[[65]], 1, 0, 0, 0, 0, true, 128, false⟩ 0 [65, 66, 0, 0] 0
          (scan_init (charbuffer_alloc 128) (charbuffer_alloc 128))) 0).unprintable = 0 ∧
      content (scan_byte ⟨[[65]], 1, 0, 0, 0, 0, true, 128, false⟩ 4
        (scan_for ⟨[[65]], 1, 0, 0, 0, 0, true, 128, false⟩ 0 [65, 66, 0, 0] 0
          (scan_init (charbuffer_alloc 128) (charbuffer_alloc 128))) 0).printable = [] ∧
      content (scan_byte ⟨[[65]], 1, 0, 0, 0, 0, true, 128, false⟩ 4
        (scan_for ⟨[[65]], 1, 0, 0, 0, 0, true, 128, false⟩ 0 [65, 66, 0, 0] 0
          (scan_init (charbuffer_alloc 128) (charbuffer_alloc 128))) 0).unprintable = [] ∧
      (scan_byte ⟨[[65]], 1, 0, 0, 0, 0, true, 128, false⟩ 4
        (scan_for ⟨[[65]], 1, 0, 0, 0, 0, true, 128, false⟩ 0 [65, 66, 0, 0] 0
          (scan_init (charbuffer_alloc 128) (charbuffer_alloc 128))) 0).printableCount = 0 ∧
      (scan_byte ⟨[[65]], 1, 0, 0, 0, 0, true, 128, false⟩ 4
        (scan_for ⟨[[65]], 1, 0, 0, 0, 0, true, 128, false⟩ 0 [65, 66, 0, 0] 0
          (scan_init (charbuffer_alloc 128) (charbuffer_alloc 128))) 0).unprintableCount = 0 ∧
      (scan_byte ⟨[[65]], 1, 0, 0, 0, 0, true, 128, false⟩ 4
        (scan_for ⟨[[65]], 1, 0, 0, 0, 0, true, 128, false⟩ 0 [65, 66, 0, 0] 0
          (scan_init (charbuffer_alloc 128) (charbuffer_alloc 128))) 0).maxChunkSize = 0 ∧
      (scan_byte ⟨[[65]], 1, 0, 0, 0, 0, true, 128, false⟩ 4
        (scan_for ⟨[[65]], 1, 0, 0, 0, 0, true, 128, false⟩ 0 [65, 66, 0, 0] 0
          (scan_init (charbuffer_alloc 128) (charbuffer_alloc 128))) 0).currChunkSize = 0) ∧
    (scan_file ⟨[[65]], 1, 0, 0, 0, 0, true, 128, false⟩ [65, 66, 0, 0, 0, 67]).map
        (fun st => (st.closures.map
          (fun e => (e.byteOffset, content e.printable, e.maxChunkSize)),
          content st.printable, content st.unprintable)) =
      some ([(4, [65, 66], 2)], [67], []) :=
  ⟨by decide,
    C22_closure_resets ⟨[[65]], 1, 0, 0, 0, 0, true, 128, false⟩ 4
      (scan_for ⟨[[65]], 1, 0, 0, 0, 0, true, 128, false⟩ 0 [65, 66, 0, 0] 0
        (scan_init (charbuffer_alloc 128) (charbuffer_alloc 128))) 0 (by decide),
    by decide⟩

/-- C23 (chain shape invariant as the specification states it), refuted: from
`charbuffer_alloc(2)`, appending three bytes, flushing and appending one byte
leaves two blocks of size 2 with 1 and 0 bytes filled: the head, which is not
the tail, is partially filled. -/
theorem C23_partial_head_counterexample :
    (apply_ops (charbuffer_alloc 2)
        [buffer_op.append_buffer [1, 2, 3], buffer_op.flush, buffer_op.append_char 9]).map
      (fun b => (b.filled, b.size)) = [(1, 2), (0, 2)] := by
  decide

/-- C23 as amended: for every chain produced from `charbuffer_alloc(c)` by any
sequence of append, flush and truncate operations on its head, after each
operation the chain is a run of full blocks, then one block (empty, partially
filled or full), then a run of empty blocks: every block before that block has
`filled ≥ size` and every block after it has `filled = 0`. -/
theorem C23_chain_shape (c : Nat) (hc : 0 < c) (ops : List buffer_op) :
    ∃ pre b post, apply_ops (charbuffer_alloc c) ops = pre ++ b :: post ∧
      AllFull pre ∧ AllEmpty post := by
  obtain ⟨hok, _⟩ := apply_ops_ok c (charbuffer_alloc c) ops ⟨alloc_ok c hc, alloc_sizes c⟩
  exact shape_parts _ hok.1 hok.2.2

/-- Witness of C23 as amended: capacity 2; three bytes appended, a flush, one
byte appended. -/
theorem C23_chain_shape_witness :
    0 < 2 ∧
    ∃ pre b post, apply_ops (charbuffer_alloc 2)
        [buffer_op.append_buffer [1, 2, 3], buffer_op.flush, buffer_op.append_char 9] =
        pre ++ b :: post ∧
      AllFull pre ∧ AllEmpty post :=
  ⟨by decide,
    C23_chain_shape 2 (by decide)
      [buffer_op.append_buffer [1, 2, 3], buffer_op.flush, buffer_op.append_char 9]⟩

/-- C24 (block bounds and uniform capacity): in every chain produced from
`charbuffer_alloc(c)` by any sequence of `append_char`, `append_buffer`,
`append_charbuffer`, `flush` and `truncate` operations on its head, every block
has `filled ≤ size` and `size = c`. -/
theorem C24_block_bounds (c : Nat) (hc : 0 < c) (ops : List buffer_op) :
    ∀ b ∈ apply_ops (charbuffer_alloc c) ops, b.filled ≤ b.size ∧ b.size = c := by
  obtain ⟨hok, hsz⟩ := apply_ops_ok c (charbuffer_alloc c) ops ⟨alloc_ok c hc, alloc_sizes c⟩
  exact fun b hb => ⟨(hok.2.1 b hb).2.1, hsz b hb⟩

/-- Witness of C24: capacity 2; a byte, a buffer of three bytes and a source
chain with offset 1 appended, then a truncate, a flush and another byte. -/
theorem C24_block_bounds_witness :
    0 < 2 ∧
    ∀ b ∈ apply_ops (charbuffer_alloc 2)
        [buffer_op.append_char 7, buffer_op.append_buffer [1, 2, 3],
          buffer_op.append_charbuffer [block_of [4, 5, 6] 3, block_of [8] 3] 1,
          buffer_op.truncate 3, buffer_op.flush, buffer_op.append_char 9],
      b.filled ≤ b.size ∧ b.size = 2 :=
  ⟨by decide,
    C24_block_bounds 2 (by decide)
      [buffer_op.append_char 7, buffer_op.append_buffer [1, 2, 3],
        buffer_op.append_charbuffer [block_of [4, 5, 6] 3, block_of [8] 3] 1,
        buffer_op.truncate 3, buffer_op.flush, buffer_op.append_char 9]⟩

/-- C25 (search soundness): for every chain and every needle, if
`charbuffer_contains_buffer` returns true then the needle occurs as
consecutive bytes of the chain's logical byte sequence, which is made of the
filled bytes of the blocks only. -/
theorem C25_search_soundness (ch : Chain) (cbuf : List Nat)
    (h : (charbuffer_contains_buffer ch cbuf).1 = true) :
    List.IsInfix cbuf (content ch) := by
  cases ch with
  | nil => simp [charbuffer_contains_buffer] at h
  | cons b next =>
    rw [contains_buffer_hit, search_hit, decide_eq_true_eq] at h
    obtain ⟨s, t, hst⟩ := contains_for_sound cbuf (content (b :: next)) 0 0 0 []
      (Nat.zero_le _) ⟨[], by simp⟩ h
    exact ⟨s, t, by rw [hst]; simp⟩

/-- Witness of C25: the blocks "xxab" and "cd" of capacity 4 and the needle
"abcd", found across the block boundary. -/
theorem C25_search_soundness_witness :
    (charbuffer_contains_buffer [block_of [120, 120, 97, 98] 4, block_of [99, 100] 4]
        [97, 98, 99, 100]).1 = true ∧
      List.IsInfix [97, 98, 99, 100]
        (content [block_of [120, 120, 97, 98] 4, block_of [99, 100] 4]) :=
  ⟨by decide,
    C25_search_soundness [block_of [120, 120, 97, 98] 4, block_of [99, 100] 4]
      [97, 98, 99, 100] (by decide)⟩

/-- C26 (block-size independence): with `nUntil = 0`, for every input and
every configuration, `scan_file` writes the same bytes to the sink for every
two values `B1 > 0` and `B2 > 0` of `bufSize`; they are the bytes that the
transition rule on byte sequences gives, in which `bufSize` does not occur. -/
theorem C26_block_size_independence (args : program_args) (B1 B2 : Nat) (fp : List Nat)
    (h1 : 0 < B1) (h2 : 0 < B2) (hu : args.nUntil = 0) :
    (scan_file { args with bufSize := B1 } fp).map (fun st => st.outFile) =
        (scan_file { args with bufSize := B2 } fp).map (fun st => st.outFile) ∧
      (scan_file { args with bufSize := B1 } fp).map (fun st => st.outFile) =
        some (run_output args
          (run_for args args.nSkipBytes (fp.drop args.nSkipBytes) 0 run_init).closures) := by
  have e1 := scan_file_output { args with bufSize := B1 } fp h1 hu
  have e2 := scan_file_output { args with bufSize := B2 } fp h2 hu
  rw [run_output_bufSize, run_for_bufSize] at e1 e2
  exact ⟨by rw [e1, e2], e1⟩

/-- Witness of C26: buffer sizes 1 and 128 on the input
"xxHELLO\x01\x01WORLDzz\x01\x01\x01\x01" with the search term "WORLD". -/
theorem C26_block_size_independence_witness :
    (0 < 1 ∧ 0 < 128 ∧
      (⟨[[87, 79, 82, 76, 68]], 2, 0, 3, 0, 0, true, 1024, false⟩ : program_args).nUntil = 0) ∧
    ((scan_file { (⟨[[87, 79, 82, 76, 68]], 2, 0, 3, 0, 0, true, 1024, false⟩ : program_args)
          with bufSize := 1 }
        [120, 120, 72, 69, 76, 76, 79, 1, 1, 87, 79, 82, 76, 68, 122, 122, 1, 1, 1, 1]).map
        (fun st => st.outFile) =
      (scan_file { (⟨[[87, 79, 82, 76, 68]], 2, 0, 3, 0, 0, true, 1024, false⟩ : program_args)
          with bufSize := 128 }
        [120, 120, 72, 69, 76, 76, 79, 1, 1, 87, 79, 82, 76, 68, 122, 122, 1, 1, 1, 1]).map
        (fun st => st.outFile) ∧
    (scan_file { (⟨[[87, 79, 82, 76, 68]], 2, 0, 3, 0, 0, true, 1024, false⟩ : program_args)
          with bufSize := 1 }
        [120, 120, 72, 69, 76, 76, 79, 1, 1, 87, 79, 82, 76, 68, 122, 122, 1, 1, 1, 1]).map
        (fun st => st.outFile) =
      some (run_output ⟨[[87, 79, 82, 76, 68]], 2, 0, 3, 0, 0, true, 1024, false⟩
        (run_for ⟨[[87, 79, 82, 76, 68]], 2, 0, 3, 0, 0, true, 1024, false⟩
          (⟨[[87, 79, 82, 76, 68]], 2, 0, 3, 0, 0, true, 1024, false⟩ : program_args).nSkipBytes
          (([120, 120, 72, 69, 76, 76, 79, 1, 1, 87, 79, 82, 76, 68, 122, 122, 1, 1, 1, 1] :
            List Nat).drop
            (⟨[[87, 79, 82, 76, 68]], 2, 0, 3, 0, 0, true, 1024, false⟩ :
              program_args).nSkipBytes) 0 run_init).closures)) :=
  ⟨⟨by decide, by decide, by decide⟩,
    C26_block_size_independence ⟨[[87, 79, 82, 76, 68]], 2, 0, 3, 0, 0, true, 1024, false⟩
      1 128 [120, 120, 72, 69, 76, 76, 79, 1, 1, 87, 79, 82, 76, 68, 122, 122, 1, 1, 1, 1]
      (by decide) (by decide) (by decide)⟩

/-- C27 (value compared against the minimum): `maxChunkSize` is 0 in every
state the scan reaches, and at every closure the value of `maxChunkSize` that
is compared with `minChunkSize` equals `currChunkSize` at that closure, which
is the length of the last uninterrupted stretch of printable bytes of the run:
the run is a candidate exactly when the budget test holds and
`currChunkSize ≥ minChunkSize`. -/
theorem C27_compared_value (args : program_args) (fp : List Nat) (hb : 0 < args.bufSize) :
    (∀ input : List Nat, (scan_for args args.nSkipBytes input 0
        (scan_init (charbuffer_alloc args.bufSize)
          (charbuffer_alloc args.bufSize))).maxChunkSize = 0) ∧
    ∃ st, scan_file args fp = some st ∧ ∀ e ∈ st.closures,
      e.maxChunkSize = e.currChunkSize ∧
      e.currChunkSize = last_stretch args (content e.printable) ∧
      e.accepted =
        ((decide (args.resultMaxSize = 0) ||
            decide (e.printableCount ≤ args.resultMaxSize)) &&
          decide (e.currChunkSize ≥ args.minChunkSize)) := by
  have hinit : (scan_init (charbuffer_alloc args.bufSize)
      (charbuffer_alloc args.bufSize)).maxChunkSize = 0 ∧
      ∀ e ∈ (scan_init (charbuffer_alloc args.bufSize)
        (charbuffer_alloc args.bufSize)).closures, e.maxChunkSize = e.currChunkSize :=
    ⟨rfl, fun e he => by simp [scan_init] at he⟩
  refine ⟨fun input => (scan_for_max_chunk args _ input 0 _ hinit).1, ?_⟩
  obtain ⟨n, _, _, he⟩ := scan_file_single_pass args fp hb
  refine ⟨_, he, ?_⟩
  intro e hmem
  have h1 := (scan_for_max_chunk args _ _ 0 _ hinit).2 e hmem
  have h2 := scan_for_accepted args args.nSkipBytes _ 0 _
    (fun e he => by simp [scan_init] at he) e hmem
  rw [h1] at h2
  exact ⟨h1, scan_for_stretch args hb _ _ e hmem, h2⟩

/-- Witness of C27: `nUnprintablesAllowed = 1`, `minChunkSize = 3` and the
input "HELLO\x01W\x01\x01\x01". -/
theorem C27_compared_value_witness :
    0 < (⟨[[72]], 1, 0, 3, 0, 0, true, 128, false⟩ : program_args).bufSize ∧
    ((∀ input : List Nat, (scan_for ⟨[[72]], 1, 0, 3, 0, 0, true, 128, false⟩
        (⟨[[72]], 1, 0, 3, 0, 0, true, 128, false⟩ : program_args).nSkipBytes input 0
        (scan_init
          (charbuffer_alloc (⟨[[72]], 1, 0, 3, 0, 0, true, 128, false⟩ : program_args).bufSize)
          (charbuffer_alloc
            (⟨[[72]], 1, 0, 3, 0, 0, true, 128, false⟩ : program_args).bufSize))).maxChunkSize
          = 0) ∧
    ∃ st, scan_file ⟨[[72]], 1, 0, 3, 0, 0, true, 128, false⟩
        [72, 69, 76, 76, 79, 1, 87, 1, 1, 1] = some st ∧ ∀ e ∈ st.closures,
      e.maxChunkSize = e.currChunkSize ∧
      e.currChunkSize =
        last_stretch ⟨[[72]], 1, 0, 3, 0, 0, true, 128, false⟩ (content e.printable) ∧
      e.accepted =
        ((decide ((⟨[[72]], 1, 0, 3, 0, 0, true, 128, false⟩ : program_args).resultMaxSize = 0) ||
            decide (e.printableCount ≤
              (⟨[[72]], 1, 0, 3, 0, 0, true, 128, false⟩ : program_args).resultMaxSize)) &&
          decide (e.currChunkSize ≥
            (⟨[[72]], 1, 0, 3, 0, 0, true, 128, false⟩ : program_args).minChunkSize))) :=
  ⟨by decide,
    C27_compared_value ⟨[[72]], 1, 0, 3, 0, 0, true, 128, false⟩
      [72, 69, 76, 76, 79, 1, 87, 1, 1, 1] (by decide)⟩

/-- C28 (budget exhaustion): with `resultMaxSize = m > 0`, `printableCount`
never exceeds `m + 1` in a state the scan reaches. From a state with
`printableCount = m + 1` and an empty tolerance counter, each of the next
`nUnprintablesAllowed + 1` bytes `F`, printable or not, is staged in the
tolerance buffer (the printable buffer is untouched, no closure happens), and
the byte `b` after them, the `(nUnprintablesAllowed + 2)`-th, takes the close
branch with `accepted = false`: the run is not passed to `chunk_accepted` and
nothing is written. -/
theorem C28_budget_exhaustion (args : program_args) (s i : Nat) (st : scan_state)
    (F : List Nat) (b : Nat) (hm : 0 < args.resultMaxSize) (hok : scan_ok st)
    (hc : st.printableCount = args.resultMaxSize + 1) (hu : st.unprintableCount = 0)
    (hF : F.length = args.nUnprintablesAllowed + 1) :
    (∀ input : List Nat, (scan_for args args.nSkipBytes input 0
        (scan_init (charbuffer_alloc args.bufSize)
          (charbuffer_alloc args.bufSize))).printableCount ≤ args.resultMaxSize + 1) ∧
    (∀ k, k ≤ F.length →
      (scan_for args s (F.take k) i st).printable = st.printable ∧
      (scan_for args s (F.take k) i st).printableCount = args.resultMaxSize + 1 ∧
      content (scan_for args s (F.take k) i st).unprintable =
        content st.unprintable ++ F.take k ∧
      (scan_for args s (F.take k) i st).closures = st.closures ∧
      (scan_for args s (F.take k) i st).outFile = st.outFile) ∧
    ∃ e, (scan_for args s (F ++ [b]) i st).closures = st.closures ++ [e] ∧
      e.byteOffset = s + (i + F.length) ∧ e.printable = st.printable ∧
      e.printableCount = args.resultMaxSize + 1 ∧ e.accepted = false ∧
      (scan_for args s (F ++ [b]) i st).outFile = st.outFile := by
  refine ⟨?_, ?_, ?_⟩
  · intro input
    exact (scan_for_budget args _ input 0 _ hm
      ⟨Nat.zero_le _, fun e he => by simp [scan_init] at he⟩).1
  · intro k hk
    have hlen : (F.take k).length = k := by
      rw [List.length_take]
      omega
    obtain ⟨_, a2, a3, _, a5, _, _, a8, a9⟩ := scan_for_exhausted args s (F.take k) i st hm hok hc
      (by rw [hlen]; omega)
    exact ⟨a2, a3, a5, a8, a9⟩
  · obtain ⟨_, a2, a3, a4, _, a6, a7, a8, a9⟩ := scan_for_exhausted args s F i st hm hok hc
      (by omega)
    have hbr : scan_branch args (scan_for args s F i st) b = scan_branch_kind.close := by
      rw [scan_branch_exhausted args _ b hm a3, if_pos (by omega)]
    rw [scan_for_append]
    simp only [scan_for]
    rw [scan_byte_close args _ _ b hbr]
    have hacc : ((decide (args.resultMaxSize = 0) ||
        decide ((scan_for args s F i st).printableCount ≤ args.resultMaxSize)) &&
        decide ((if (scan_for args s F i st).currChunkSize >
            (scan_for args s F i st).maxChunkSize then (scan_for args s F i st).currChunkSize
          else (scan_for args s F i st).maxChunkSize) ≥ args.minChunkSize)) = false := by
      have h1 : decide (args.resultMaxSize = 0) = false := by
        rw [decide_eq_false_iff_not]
        omega
      have h2 : decide ((scan_for args s F i st).printableCount ≤ args.resultMaxSize) = false := by
        rw [decide_eq_false_iff_not, a3]
        omega
      rw [h1, h2]
      rfl
    refine ⟨_, by rw [a8], rfl, a2, a3, hacc, ?_⟩
    simp only [hacc, a9]
    rfl

/-- Witness of C28: `resultMaxSize = 2` and `nUnprintablesAllowed = 1`; after
"ABC" the printable count is 3; the bytes 'D' and 0x00 are staged and the byte
'E' closes the run, which is not a candidate. -/
theorem C28_budget_exhaustion_witness :
    (0 < exhausted_args.resultMaxSize ∧ scan_ok exhausted_state ∧
      exhausted_state.printableCount = exhausted_args.resultMaxSize + 1 ∧
      exhausted_state.unprintableCount = 0 ∧
      [68, 0].length = exhausted_args.nUnprintablesAllowed + 1) ∧
    ((∀ input : List Nat, (scan_for exhausted_args exhausted_args.nSkipBytes input 0
        (scan_init (charbuffer_alloc exhausted_args.bufSize)
          (charbuffer_alloc exhausted_args.bufSize))).printableCount ≤
        exhausted_args.resultMaxSize + 1) ∧
    (∀ k, k ≤ [68, 0].length →
      (scan_for exhausted_args 0 ([68, 0].take k) 3 exhausted_state).printable =
        exhausted_state.printable ∧
      (scan_for exhausted_args 0 ([68, 0].take k) 3 exhausted_state).printableCount =
        exhausted_args.resultMaxSize + 1 ∧
      content (scan_for exhausted_args 0 ([68, 0].take k) 3 exhausted_state).unprintable =
        content exhausted_state.unprintable ++ [68, 0].take k ∧
      (scan_for exhausted_args 0 ([68, 0].take k) 3 exhausted_state).closures =
        exhausted_state.closures ∧
      (scan_for exhausted_args 0 ([68, 0].take k) 3 exhausted_state).outFile =
        exhausted_state.outFile) ∧
    ∃ e, (scan_for exhausted_args 0 ([68, 0] ++ [69]) 3 exhausted_state).closures =
        exhausted_state.closures ++ [e] ∧
      e.byteOffset = 0 + (3 + [68, 0].length) ∧ e.printable = exhausted_state.printable ∧
      e.printableCount = exhausted_args.resultMaxSize + 1 ∧ e.accepted = false ∧
      (scan_for exhausted_args 0 ([68, 0] ++ [69]) 3 exhausted_state).outFile =
        exhausted_state.outFile) :=
  ⟨⟨by decide, (scan_for_run exhausted_args 0 [65, 66, 67] 0 _ (scan_init_ok 128 (by decide))).1,
      by decide, by decide, by decide⟩,
    C28_budget_exhaustion exhausted_args 0 3 exhausted_state [68, 0] 69 (by decide)
      (scan_for_run exhausted_args 0 [65, 66, 67] 0 _ (scan_init_ok 128 (by decide))).1
      (by decide) (by decide) (by decide)⟩

end Dumpfilter
